import Mathlib

/-!
# Verification of the cppds open-addressing hash container and collaborators

Shallow embedding of the `cppds` library:

* `fnv1hash` models `__fnv1hash` (FNV-1 over the key's byte representation,
  accumulator of C++ type `std::size_t`, modelled with an explicit word width
  `w`, arithmetic mod `2^w`);
* `Table`, `probe`, `insertF`/`reserveF`/`reinsF`, `eraseT`, `containsT`,
  `sizeT`, `clearT` model `cppds::map` from `include/cppds/map.hpp`
  (three parallel buffers, linear probing without wraparound, hash value `0`
  as the empty-slot sentinel, capacity doubling with in-place reinsertion);
  the model is parametric in the hash function `hfun` induced by the key type,
  and the recursive operations carry an explicit fuel counter (each recursive
  call consumes one unit) so that they are total; theorems show the fuel
  suffices;
* `vinsert`, `vpushFront` model `cppds::vector::insert` / `push_front`
  from `include/cppds/vector.hpp`.
-/

namespace Cppds

/-! ## The hash function (`__fnv1hash`, src/unnamed byte-hash header)

```cpp
size_t __fnv1hash(const void *_data, std::size_t _size) {
    const std::uint32_t __FNV_BASIS32 = 0x811c9dc5u;
    const std::uint32_t __FNV_PRIME32 = 0x01000193u;
    const std::uint8_t *buf = (const std::uint8_t *) _data;
    std::size_t hash = __FNV_BASIS32;
    for (std::size_t i = 0; i < _size; ++i) {
        hash *= __FNV_PRIME32;
        hash ^= (size_t) buf[i];
    }
    return hash;
}
```

The accumulator has type `std::size_t`; its width is platform defined
(32 bits on ILP32, 64 bits on LP64), so the model takes the width `w` as a
parameter and reduces the product mod `2^w` exactly as the machine does. -/

def fnvBasis : Nat := 0x811c9dc5

def fnvPrime : Nat := 0x01000193

/-- `__fnv1hash` on a byte list, with `std::size_t` of width `w` bits. -/
def fnv1hash (w : Nat) (data : List Nat) : Nat :=
  data.foldl (fun h b => (h * fnvPrime % 2 ^ w) ^^^ b) fnvBasis

/-- Modelled from the spec (§4.1): the FNV-1 fold described there, with the
accumulator kept in 32-bit modular arithmetic throughout.  Used as the
reference point the spec claims `__fnv1hash` computes. -/
def fnv1spec (data : List Nat) : Nat :=
  data.foldl (fun h b => (h * fnvPrime % 2 ^ 32) ^^^ b) fnvBasis

/-! ## The vector (`cppds::vector`, include/cppds/vector.hpp)

```cpp
void insert(size_type _index, const value_type &_value) {
    resize(size() + 1);
    for (size_type i = _index; i < size() - 1; ++i) {
        operator[](i + 1) = operator[](i);
    }
    operator[](_index) = _value;
}
void push_front(const value_type &_value) { insert(0, _value); }
```

`resize(size()+1)` reallocates and leaves the new trailing element
uninitialized; the model makes that junk value an explicit parameter. -/

/-- The copy loop `for (i = idx; i < stop; ++i) a[i+1] = a[i]`, with the
iteration count made explicit (`n` iterations starting at index `idx`). -/
def copyUp (junk : α) : Nat → List α → Nat → List α
  | 0, l, _ => l
  | n + 1, l, idx => copyUp junk n (l.set (idx + 1) (l.getD idx junk)) (idx + 1)

/-- `vector::insert(_index, _value)`: grow by one (the new cell holds the
uninitialized value `junk`), run the upward copy loop, then write the value
at `_index`. -/
def vinsert (junk : α) (l : List α) (idx : Nat) (v : α) : List α :=
  let l1 := l ++ [junk]
  ((copyUp junk (l1.length - 1 - idx) l1 idx).set idx v)

/-- `vector::push_front(_value)` = `insert(0, _value)`. -/
def vpushFront (junk : α) (l : List α) (v : α) : List α :=
  vinsert junk l 0 v

/-! ## The map (`cppds::map`, include/cppds/map.hpp)

Three parallel buffers plus a capacity counter:

```cpp
size_type *_M_hdata {}; key_type *_M_kdata {};
value_type *_M_vdata {}; size_type _M_capacity {};
```

The model is parametric in the hash function `hfun : K → Nat`
(in the source, `hfun k = __fnv1hash(&k, sizeof k)` for the key type the
template is instantiated at). -/

structure Table (K V : Type) where
  hdata : List Nat
  kdata : List K
  vdata : List V
  capacity : Nat

variable {K V : Type}

/-- All three buffers have length `_M_capacity`. -/
def WF (t : Table K V) : Prop :=
  t.hdata.length = t.capacity ∧ t.kdata.length = t.capacity ∧
    t.vdata.length = t.capacity

/-- The probe loop shared by insert/erase/contains:

```cpp
while (idx < this->capacity()
    && this->_M_hdata[idx]
    && this->_M_hdata[idx] != hash) { ++idx; }
```

`n` bounds the number of iterations; callers pass `cap - idx`, which the
loop can never exceed since `idx` increases towards `cap`. -/
def probeGo (hd : List Nat) (cap h : Nat) : Nat → Nat → Nat
  | 0, idx => idx
  | n + 1, idx =>
    if idx < cap ∧ hd.getD idx 0 ≠ 0 ∧ hd.getD idx 0 ≠ h then
      probeGo hd cap h n (idx + 1)
    else idx

/-- `size_t idx = this->capacity() ? hash % this->capacity() : 0;` -/
def pstart (cap h : Nat) : Nat := if cap = 0 then 0 else h % cap

/-- Full probe for hash `h`: start at `pstart`, scan forward. -/
def probeT (t : Table K V) (h : Nat) : Nat :=
  probeGo t.hdata t.capacity h (t.capacity - pstart t.capacity h)
    (pstart t.capacity h)

/-- `size()`: scan counting non-empty hash markers. -/
def sizeT (t : Table K V) : Nat :=
  t.hdata.countP (fun x => x != 0)

variable (hfun : K → Nat)

/-- `contains(key)`: probe, then report whether the stop slot is in bounds
and holds the key's hash. -/
def containsT (t : Table K V) (k : K) : Bool :=
  let h := hfun k
  let idx := probeT t h
  decide (idx < t.capacity) && (t.hdata.getD idx 0 == h)

/-- `erase(key)`: probe; inside bounds, reset the hash marker to the empty
sentinel (the payload destructor calls do not change the observable state,
so the key/value buffers are kept). -/
def eraseT (t : Table K V) (k : K) : Table K V :=
  if probeT t (hfun k) < t.capacity then
    { t with hdata := t.hdata.set (probeT t (hfun k)) 0 }
  else t

/-- `clear()`: free all three buffers, reset capacity to zero. -/
def clearT : Table K V := ⟨[], [], [], 0⟩

/-- The reallocation part of `reserve`: `realloc` all three buffers to
capacity `c` (preserving the prefix, new key/value cells uninitialized) and
`memset` the newly added hash-marker region to zero. -/
def grow [Inhabited K] [Inhabited V] (t : Table K V) (c : Nat) : Table K V :=
  { hdata := t.hdata ++ List.replicate (c - t.capacity) 0
    kdata := t.kdata ++ List.replicate (c - t.capacity) default
    vdata := t.vdata ++ List.replicate (c - t.capacity) default
    capacity := c }

/-- The final write of `insert` once the probe found slot `idx`:
`_M_kdata[idx] = _key; _M_vdata[idx] = _value; _M_hdata[idx] = hash;`. -/
def writeT (t : Table K V) (idx h : Nat) (k : K) (v : V) : Table K V :=
  { t with hdata := t.hdata.set idx h
           kdata := t.kdata.set idx k
           vdata := t.vdata.set idx v }

variable [Inhabited K] [Inhabited V]

/-- `insert` / `reserve` and `reserve`'s reinsertion loop.  `insert` retries
after growing (`goto try_again`), `reserve` reinserts every occupied slot of
the old range, and each reinsertion calls `insert` again, so the three are
mutually recursive; `fuel` decreases on every recursive call, and `none`
means the fuel ran out (the termination theorems show enough fuel always
exists). -/
def engine (hfun : K → Nat) : Nat → Table K V ⊕ (Table K V × Nat) ⊕ (Table K V × Nat × Nat) →
    (K × V) ⊕ Unit → Option (Table K V)
  | 0, _, _ => none
  | fuel + 1, Sum.inl t, Sum.inl (k, v) =>
    -- insert(_key, _value)
    let h := hfun k
    let idx := probeT t h
    if idx < t.capacity then some (writeT t idx h k v)
    else
      match engine hfun fuel (Sum.inr (Sum.inl (t, if sizeT t = 0 then 1 else t.capacity * 2))) (Sum.inr ()) with
      | none => none
      | some t1 => engine hfun fuel (Sum.inl t1) (Sum.inl (k, v))
  | fuel + 1, Sum.inr (Sum.inl (t, c)), _ =>
    -- reserve(_capacity)
    if c < t.capacity then some t
    else engine hfun fuel (Sum.inr (Sum.inr (grow t c, 0, t.capacity))) (Sum.inr ())
  | fuel + 1, Sum.inr (Sum.inr (t, i, old)), _ =>
    -- for (size_t i = 0; i < old_capacity; ++i) if (_M_hdata[i]) { ... }
    if i < old then
      if t.hdata.getD i 0 ≠ 0 then
        match engine hfun fuel
            (Sum.inl { t with hdata := t.hdata.set i 0 })
            (Sum.inl (t.kdata.getD i default, t.vdata.getD i default)) with
        | none => none
        | some t1 => engine hfun fuel (Sum.inr (Sum.inr (t1, i + 1, old))) (Sum.inr ())
      else engine hfun fuel (Sum.inr (Sum.inr (t, i + 1, old))) (Sum.inr ())
    else some t
  | _ + 1, Sum.inl _, Sum.inr () => none

/-- `insert(_key, _value)` with fuel. -/
def insertF (fuel : Nat) (t : Table K V) (k : K) (v : V) : Option (Table K V) :=
  engine hfun fuel (Sum.inl t) (Sum.inl (k, v))

/-- `reserve(_capacity)` with fuel. -/
def reserveF (fuel : Nat) (t : Table K V) (c : Nat) : Option (Table K V) :=
  engine hfun fuel (Sum.inr (Sum.inl (t, c))) (Sum.inr ())

/-- `reserve`'s reinsertion loop with fuel: iterations `i, …, old - 1`. -/
def reinsF (fuel : Nat) (t : Table K V) (i old : Nat) : Option (Table K V) :=
  engine hfun fuel (Sum.inr (Sum.inr (t, i, old))) (Sum.inr ())

end Cppds

namespace Cppds

/-! ## List helpers -/

theorem getD_set_self {α : Type _} (l : List α) (p : Nat) (x d : α)
    (hp : p < l.length) : (l.set p x).getD p d = x := by
  simp [List.getD_eq_getElem?_getD, List.getElem?_set_self hp]

theorem getD_set_ne {α : Type _} (l : List α) {p q : Nat} (x d : α)
    (hpq : p ≠ q) : (l.set p x).getD q d = l.getD q d := by
  simp [List.getD_eq_getElem?_getD, List.getElem?_set_ne hpq]

theorem set_getD_eq {α : Type _} (l : List α) (p : Nat) (x d : α)
    (hp : p < l.length) (hx : l.getD p d = x) : l.set p x = l := by
  apply List.ext_getElem?
  intro n
  rcases eq_or_ne p n with rfl | hne
  · rw [List.getElem?_set_self hp, List.getD_eq_getElem?_getD,
      List.getElem?_eq_getElem hp] at *
    simpa using hx.symm
  · rw [List.getElem?_set_ne hne]

theorem getD_mem_of_lt {α : Type _} (l : List α) (p : Nat) (d : α)
    (hp : p < l.length) : l.getD p d ∈ l := by
  rw [List.getD_eq_getElem?_getD, List.getElem?_eq_getElem hp]
  exact List.getElem_mem hp

/-! ## Probe loop: specification lemmas -/

variable {K V : Type}

theorem probeGo_ge (hd : List Nat) (cap h : Nat) :
    ∀ n idx, idx ≤ probeGo hd cap h n idx := by
  intro n
  induction n with
  | zero => intro idx; simp [probeGo]
  | succ n ih =>
    intro idx
    simp only [probeGo]
    split
    · exact le_trans (Nat.le_succ idx) (ih (idx + 1))
    · exact le_refl idx

theorem probeGo_le (hd : List Nat) (cap h : Nat) :
    ∀ n idx, idx ≤ cap → probeGo hd cap h n idx ≤ cap := by
  intro n
  induction n with
  | zero => intro idx hidx; simpa [probeGo] using hidx
  | succ n ih =>
    intro idx hidx
    simp only [probeGo]
    split
    · next hcond => exact ih (idx + 1) hcond.1
    · exact hidx

theorem probeGo_stop (hd : List Nat) (cap h : Nat) :
    ∀ n idx, cap ≤ idx + n → probeGo hd cap h n idx < cap →
      hd.getD (probeGo hd cap h n idx) 0 = 0 ∨
        hd.getD (probeGo hd cap h n idx) 0 = h := by
  intro n
  induction n with
  | zero =>
    intro idx hfuel hlt
    simp only [probeGo] at hlt
    omega
  | succ n ih =>
    intro idx hfuel hlt
    simp only [probeGo] at hlt ⊢
    split at hlt
    · next hcond =>
      rw [if_pos hcond]
      exact ih (idx + 1) (by omega) hlt
    · next hcond =>
      rw [if_neg hcond]
      push_neg at hcond
      by_cases h0 : hd.getD idx 0 = 0
      · exact Or.inl h0
      · exact Or.inr (hcond hlt h0)

theorem probeGo_pass (hd : List Nat) (cap h : Nat) :
    ∀ n idx m, idx ≤ m → m < probeGo hd cap h n idx →
      m < cap ∧ hd.getD m 0 ≠ 0 ∧ hd.getD m 0 ≠ h := by
  intro n
  induction n with
  | zero => intro idx m him hm; simp only [probeGo] at hm; omega
  | succ n ih =>
    intro idx m him hm
    simp only [probeGo] at hm
    split at hm
    · next hcond =>
      rcases eq_or_lt_of_le him with rfl | hlt
      · exact hcond
      · exact ih (idx + 1) m hlt hm
    · omega

theorem probeGo_min (hd : List Nat) (cap h : Nat) :
    ∀ n idx j, idx ≤ j → (hd.getD j 0 = 0 ∨ hd.getD j 0 = h) →
      probeGo hd cap h n idx ≤ j := by
  intro n
  induction n with
  | zero => intro idx j hij _; simpa [probeGo] using hij
  | succ n ih =>
    intro idx j hij hj
    simp only [probeGo]
    split
    · next hcond =>
      rcases eq_or_lt_of_le hij with rfl | hlt
      · rcases hj with h0 | hh
        · exact absurd h0 hcond.2.1
        · exact absurd hh hcond.2.2
      · exact ih (idx + 1) j hlt hj
    · exact hij

theorem probeGo_full (hd : List Nat) (cap h : Nat) :
    ∀ n idx, cap ≤ idx + n → idx ≤ cap →
      (∀ m, idx ≤ m → m < cap → hd.getD m 0 ≠ 0 ∧ hd.getD m 0 ≠ h) →
      probeGo hd cap h n idx = cap := by
  intro n
  induction n with
  | zero => intro idx h1 h2 _; simp only [probeGo]; omega
  | succ n ih =>
    intro idx h1 h2 hfull
    simp only [probeGo]
    by_cases hcap : idx < cap
    · rw [if_pos ⟨hcap, hfull idx le_rfl hcap⟩]
      exact ih (idx + 1) (by omega) hcap fun m hm => hfull m (by omega)
    · rw [if_neg (by tauto)]
      omega

theorem pstart_le (cap h : Nat) : pstart cap h ≤ cap := by
  unfold pstart
  split
  · omega
  · exact Nat.le_of_lt (Nat.mod_lt _ (by omega))

theorem pstart_lt (cap h : Nat) (hc : 0 < cap) : pstart cap h < cap := by
  unfold pstart
  rw [if_neg (by omega)]
  exact Nat.mod_lt _ hc

theorem probeT_ge (t : Table K V) (h : Nat) :
    pstart t.capacity h ≤ probeT t h :=
  probeGo_ge _ _ _ _ _

theorem probeT_le (t : Table K V) (h : Nat) : probeT t h ≤ t.capacity :=
  probeGo_le _ _ _ _ _ (pstart_le _ _)

theorem probeT_stop (t : Table K V) (h : Nat) (hlt : probeT t h < t.capacity) :
    t.hdata.getD (probeT t h) 0 = 0 ∨ t.hdata.getD (probeT t h) 0 = h :=
  probeGo_stop _ _ _ _ _ (by have := pstart_le t.capacity h; omega) hlt

theorem probeT_pass (t : Table K V) (h m : Nat)
    (h1 : pstart t.capacity h ≤ m) (h2 : m < probeT t h) :
    m < t.capacity ∧ t.hdata.getD m 0 ≠ 0 ∧ t.hdata.getD m 0 ≠ h :=
  probeGo_pass _ _ _ _ _ _ h1 h2

theorem probeT_min (t : Table K V) (h j : Nat)
    (h1 : pstart t.capacity h ≤ j)
    (h2 : t.hdata.getD j 0 = 0 ∨ t.hdata.getD j 0 = h) : probeT t h ≤ j :=
  probeGo_min _ _ _ _ _ _ h1 h2

theorem probeT_full (t : Table K V) (h : Nat)
    (hfull : ∀ m, pstart t.capacity h ≤ m → m < t.capacity →
      t.hdata.getD m 0 ≠ 0 ∧ t.hdata.getD m 0 ≠ h) :
    probeT t h = t.capacity :=
  probeGo_full _ _ _ _ _ (by have := pstart_le t.capacity h; omega)
    (pstart_le _ _) hfull

theorem probeT_eq_of (t : Table K V) (h j : Nat)
    (hj1 : pstart t.capacity h ≤ j) (hj2 : j < t.capacity)
    (hj3 : t.hdata.getD j 0 = 0 ∨ t.hdata.getD j 0 = h)
    (hpass : ∀ m, pstart t.capacity h ≤ m → m < j →
      t.hdata.getD m 0 ≠ 0 ∧ t.hdata.getD m 0 ≠ h) :
    probeT t h = j := by
  have hle : probeT t h ≤ j := probeT_min t h j hj1 hj3
  rcases eq_or_lt_of_le hle with heq | hlt
  · exact heq
  · have hstop := probeT_stop t h (lt_of_lt_of_le hlt (le_of_lt hj2))
    have hp := hpass _ (probeT_ge t h) hlt
    tauto

/-- Writing outside the probe window `[pstart, probeT]` does not move the
probe. -/
theorem probeT_set_out (t : Table K V) (h : Nat) (p : Nat) (x : Nat)
    (hp : p < pstart t.capacity h ∨ probeT t h < p) :
    probeT { t with hdata := t.hdata.set p x } h = probeT t h := by
  have hcap : ({ t with hdata := t.hdata.set p x } : Table K V).capacity
      = t.capacity := rfl
  have hget : ∀ m, pstart t.capacity h ≤ m → m ≤ probeT t h →
      (t.hdata.set p x).getD m 0 = t.hdata.getD m 0 := by
    intro m hm1 hm2
    exact getD_set_ne _ _ _ (by omega)
  rcases Nat.lt_or_ge (probeT t h) t.capacity with hlt | hge
  · exact probeT_eq_of _ h (probeT t h) (probeT_ge t h) hlt
      (by rw [show ({ t with hdata := t.hdata.set p x } : Table K V).hdata
            = t.hdata.set p x from rfl,
          hget _ (probeT_ge t h) le_rfl]
          exact probeT_stop t h hlt)
      (by intro m hm1 hm2
          rw [show ({ t with hdata := t.hdata.set p x } : Table K V).hdata
              = t.hdata.set p x from rfl, hget _ hm1 (le_of_lt hm2)]
          exact (probeT_pass t h m hm1 hm2).2)
  · have heq : probeT t h = t.capacity :=
      le_antisymm (probeT_le t h) hge
    rw [heq]
    apply probeT_full
    intro m hm1 hm2
    rw [show ({ t with hdata := t.hdata.set p x } : Table K V).hdata
        = t.hdata.set p x from rfl, hget _ hm1 (by omega)]
    exact (probeT_pass t h m hm1 (by omega)).2

/-- Probe-based membership by hash value; `contains` is this at the key's
hash. -/
def containsH (t : Table K V) (h : Nat) : Bool :=
  decide (probeT t h < t.capacity) && (t.hdata.getD (probeT t h) 0 == h)

theorem containsT_eq_containsH (hfun : K → Nat) (t : Table K V) (k : K) :
    containsT hfun t k = containsH t (hfun k) := rfl

theorem containsH_iff (t : Table K V) (h : Nat) :
    containsH t h = true ↔
      probeT t h < t.capacity ∧ t.hdata.getD (probeT t h) 0 = h := by
  simp [containsH]

/-! ## Table invariants

* `invA`: every occupied slot stores the hash of its own key (spec §3).
* `invB`: no two occupied slots store the same hash (spec §3).
* `invC`: every occupied slot is found by probing for its stored hash.
* `invD`: every occupied slot sits at or after its hash's start index
  (probing never wraps, so entries only ever land forward of their start).
-/

def invA [Inhabited K] (hfun : K → Nat) (t : Table K V) : Prop :=
  ∀ j, j < t.capacity → t.hdata.getD j 0 ≠ 0 →
    t.hdata.getD j 0 = hfun (t.kdata.getD j default)

def invB (t : Table K V) : Prop :=
  ∀ i j, i < t.capacity → j < t.capacity → t.hdata.getD i 0 ≠ 0 →
    t.hdata.getD i 0 = t.hdata.getD j 0 → i = j

def invC (t : Table K V) : Prop :=
  ∀ j, j < t.capacity → t.hdata.getD j 0 ≠ 0 →
    probeT t (t.hdata.getD j 0) = j

def invD (t : Table K V) : Prop :=
  ∀ j, j < t.capacity → t.hdata.getD j 0 ≠ 0 →
    pstart t.capacity (t.hdata.getD j 0) ≤ j

theorem invB_of_invC (t : Table K V) (hC : invC t) : invB t := by
  intro i j hi hj hne heq
  have h1 := hC i hi hne
  have h2 := hC j hj (heq ▸ hne)
  rw [heq] at h1
  omega

theorem invD_of_invC (t : Table K V) (hC : invC t) : invD t := by
  intro j hj hne
  have h1 := hC j hj hne
  have := probeT_ge t (t.hdata.getD j 0)
  omega

/-! ## Size lemmas -/

theorem getD_eq_getElem {α : Type _} (l : List α) (p : Nat) (d : α)
    (hp : p < l.length) : l.getD p d = l[p] := by
  simp [List.getD_eq_getElem?_getD, List.getElem?_eq_getElem hp]

theorem sizeT_le (t : Table K V) : sizeT t ≤ t.hdata.length := by
  unfold sizeT
  exact List.countP_le_length _

theorem sizeT_set_zero (t : Table K V) (j : Nat) (hj : j < t.hdata.length)
    (hocc : t.hdata.getD j 0 ≠ 0) :
    sizeT { t with hdata := t.hdata.set j 0 } + 1 = sizeT t := by
  show (t.hdata.set j 0).countP (fun x => x != 0) + 1
      = t.hdata.countP (fun x => x != 0)
  rw [List.countP_set _ _ _ _ hj]
  rw [getD_eq_getElem _ _ _ hj] at hocc
  have hb : (t.hdata[j] != 0) = true := by simpa using hocc
  have hcnt := List.boole_getElem_le_countP (fun x => x != 0) t.hdata j hj
  rw [hb] at hcnt
  simp only [if_true] at hcnt
  simp [hb]
  omega

theorem sizeT_set_fresh (t : Table K V) (j : Nat) (x : Nat)
    (hj : j < t.hdata.length) (hemp : t.hdata.getD j 0 = 0) (hx : x ≠ 0) :
    sizeT { t with hdata := t.hdata.set j x } = sizeT t + 1 := by
  show (t.hdata.set j x).countP (fun y => y != 0)
      = t.hdata.countP (fun y => y != 0) + 1
  rw [List.countP_set _ _ _ _ hj]
  rw [getD_eq_getElem _ _ _ hj] at hemp
  have hb : (t.hdata[j] != 0) = false := by simpa using hemp
  have hxb : (x != 0) = true := by simpa using hx
  rw [hb, hxb]
  simp

theorem sizeT_zero_iff (t : Table K V) :
    sizeT t = 0 ↔ ∀ j, j < t.hdata.length → t.hdata.getD j 0 = 0 := by
  constructor
  · intro h0 j hj
    by_contra hne
    rw [getD_eq_getElem _ _ _ hj] at hne
    have hb : (t.hdata[j] != 0) = true := by simpa using hne
    have hcnt := List.boole_getElem_le_countP (fun x => x != 0) t.hdata j hj
    rw [hb] at hcnt
    unfold sizeT at h0
    rw [h0] at hcnt
    simp at hcnt
  · intro hall
    unfold sizeT
    rw [List.countP_eq_zero]
    intro a ha
    obtain ⟨j, hj, rfl⟩ := List.getElem_of_mem ha
    have := hall j hj
    rw [getD_eq_getElem _ _ _ hj] at this
    simp [this]

theorem sizeT_lt_iff (t : Table K V) (hwf : WF t) :
    sizeT t < t.capacity ↔
      ∃ j, j < t.capacity ∧ t.hdata.getD j 0 = 0 := by
  obtain ⟨hlen, -, -⟩ := hwf
  constructor
  · intro hlt
    by_contra hno
    push_neg at hno
    have : t.hdata.countP (fun x => x != 0) = t.hdata.length := by
      rw [List.countP_eq_length]
      intro a ha
      obtain ⟨j, hj, rfl⟩ := List.getElem_of_mem ha
      have := hno j (hlen ▸ hj)
      rw [getD_eq_getElem _ _ _ hj] at this
      simpa using this
    unfold sizeT at hlt
    omega
  · rintro ⟨j, hj, hemp⟩
    have hjl : j < t.hdata.length := hlen ▸ hj
    have : t.hdata.countP (fun x => x != 0) ≠ t.hdata.length := by
      rw [Ne, List.countP_eq_length]
      intro hall
      have := hall _ (getD_mem_of_lt t.hdata j 0 hjl)
      rw [hemp] at this
      simp at this
    have hle := @List.countP_le_length Nat (fun x => x != 0) t.hdata
    unfold sizeT
    omega

/-- Probing for hash 0 starts at index 0 and succeeds exactly when some slot
is empty. -/
theorem containsH_zero_iff (t : Table K V) (hwf : WF t) :
    containsH t 0 = true ↔ sizeT t < t.capacity := by
  have hps : pstart t.capacity 0 = 0 := by
    unfold pstart
    split <;> simp
  rw [containsH_iff, sizeT_lt_iff t hwf]
  constructor
  · rintro ⟨hlt, hstop⟩
    exact ⟨probeT t 0, hlt, hstop⟩
  · rintro ⟨j, hj, hemp⟩
    have hle : probeT t 0 ≤ j := probeT_min t 0 j (by omega) (Or.inl hemp)
    have hlt : probeT t 0 < t.capacity := by omega
    have := probeT_stop t 0 hlt
    exact ⟨hlt, by tauto⟩

/-! ## The effect of the final write of `insert` -/

theorem probeT_congr_eq (t t' : Table K V) (g : Nat)
    (h1 : t'.hdata = t.hdata) (h2 : t'.capacity = t.capacity) :
    probeT t' g = probeT t g := by
  unfold probeT
  rw [h1, h2]

theorem WF_writeT (t : Table K V) (idx h : Nat) (k : K) (v : V) (hwf : WF t) :
    WF (writeT t idx h k v) := by
  obtain ⟨h1, h2, h3⟩ := hwf
  exact ⟨by simpa [writeT] using h1, by simpa [writeT] using h2,
    by simpa [writeT] using h3⟩

theorem write_probe_self (t : Table K V) (h : Nat) (k : K) (v : V)
    (hwf : WF t) (hidx : probeT t h < t.capacity) :
    probeT (writeT t (probeT t h) h k v) h = probeT t h := by
  apply probeT_eq_of
  · exact probeT_ge t h
  · exact hidx
  · right
    show (t.hdata.set (probeT t h) h).getD (probeT t h) 0 = h
    exact getD_set_self _ _ _ _ (hwf.1 ▸ hidx)
  · intro m hm1 hm2
    show (t.hdata.set (probeT t h) h).getD m 0 ≠ 0 ∧
         (t.hdata.set (probeT t h) h).getD m 0 ≠ h
    rw [getD_set_ne _ _ _ (by omega)]
    exact (probeT_pass t h m hm1 hm2).2

theorem write_containsH_self (t : Table K V) (h : Nat) (k : K) (v : V)
    (hwf : WF t) (hidx : probeT t h < t.capacity) :
    containsH (writeT t (probeT t h) h k v) h = true := by
  rw [containsH_iff, write_probe_self t h k v hwf hidx]
  refine ⟨hidx, ?_⟩
  show (t.hdata.set (probeT t h) h).getD (probeT t h) 0 = h
  exact getD_set_self _ _ _ _ (hwf.1 ▸ hidx)

/-- A slot that probing already finds is not disturbed by the write:
either the write happens elsewhere, or it rewrites the same hash value. -/
theorem write_keep_slot (t : Table K V) (h : Nat) (k : K) (v : V)
    (hwf : WF t) (hidx : probeT t h < t.capacity)
    (j : Nat) (hj : j < t.capacity) (hocc : t.hdata.getD j 0 ≠ 0)
    (hfind : probeT t (t.hdata.getD j 0) = j) :
    probeT (writeT t (probeT t h) h k v) (t.hdata.getD j 0) = j ∧
      (writeT t (probeT t h) h k v).hdata.getD j 0 = t.hdata.getD j 0 := by
  set g := t.hdata.getD j 0 with hg
  have hstop := probeT_stop t h hidx
  by_cases hcase : probeT t h = j
  · -- the write lands exactly on the found slot: it must rewrite `g`
    have hgh : g = h := by
      rcases hstop with h0 | hh
      · rw [hcase] at h0; exact absurd h0 hocc
      · rw [hcase] at hh; omega
    have hsame : t.hdata.set (probeT t h) h = t.hdata := by
      apply set_getD_eq _ _ _ 0 (hwf.1 ▸ hidx)
      rw [hcase, ← hg, hgh]
    constructor
    · have hcg : probeT (writeT t (probeT t h) h k v) g = probeT t g :=
        probeT_congr_eq t _ g hsame rfl
      rw [hcg]
      exact hfind
    · show (t.hdata.set (probeT t h) h).getD j 0 = g
      rw [hsame]
  · by_cases hwin : pstart t.capacity g ≤ probeT t h ∧ probeT t h < j
    · -- the write lands inside `g`'s probe window: the slot there is
      -- occupied, so the stop condition forces a same-value rewrite
      have hpass := probeT_pass t g (probeT t h) hwin.1 (hfind ▸ hwin.2)
      have hh : t.hdata.getD (probeT t h) 0 = h := by
        rcases hstop with h0 | hh
        · exact absurd h0 hpass.2.1
        · exact hh
      have hsame : t.hdata.set (probeT t h) h = t.hdata := by
        apply set_getD_eq _ _ _ 0 (hwf.1 ▸ hidx)
        exact hh
      constructor
      · have hcg : probeT (writeT t (probeT t h) h k v) g = probeT t g :=
          probeT_congr_eq t _ g hsame rfl
        rw [hcg]
        exact hfind
      · show (t.hdata.set (probeT t h) h).getD j 0 = g
        rw [hsame]
    · -- the write lands outside the window
      have hout : probeT t h < pstart t.capacity g ∨ probeT t g < probeT t h := by
        rw [hfind]
        omega
      constructor
      · have hcg : probeT (writeT t (probeT t h) h k v) g
            = probeT { t with hdata := t.hdata.set (probeT t h) h } g :=
          probeT_congr_eq _ _ g rfl rfl
        rw [hcg, probeT_set_out t g (probeT t h) h hout]
        exact hfind
      · show (t.hdata.set (probeT t h) h).getD j 0 = g
        rw [getD_set_ne _ _ _ (by omega)]

theorem write_containsH_keep (t : Table K V) (h : Nat) (k : K) (v : V)
    (hwf : WF t) (hidx : probeT t h < t.capacity)
    (g : Nat) (hg : g ≠ 0) (hc : containsH t g = true) :
    containsH (writeT t (probeT t h) h k v) g = true := by
  rw [containsH_iff] at hc
  obtain ⟨hlt, hget⟩ := hc
  have := write_keep_slot t h k v hwf hidx (probeT t g) hlt
    (by rw [hget]; exact hg) (by rw [hget])
  rw [hget] at this
  rw [containsH_iff]
  exact ⟨by rw [this.1]; exact hlt, by rw [this.1]; exact this.2⟩

theorem write_invA [Inhabited K] (hfun : K → Nat) (t : Table K V) (h : Nat)
    (k : K) (v : V) (hwf : WF t) (hidx : probeT t h < t.capacity)
    (hk : h = hfun k) (hA : invA hfun t) :
    invA hfun (writeT t (probeT t h) h k v) := by
  intro j hj hocc
  show (t.hdata.set (probeT t h) h).getD j 0
      = hfun ((t.kdata.set (probeT t h) k).getD j default)
  by_cases hcase : probeT t h = j
  · rw [← hcase, getD_set_self _ _ _ _ (hwf.1 ▸ hidx),
      getD_set_self _ _ _ _ (hwf.2.1 ▸ hidx)]
    exact hk
  · rw [getD_set_ne _ _ _ hcase, getD_set_ne _ _ _ hcase]
    show t.hdata.getD j 0 = hfun (t.kdata.getD j default)
    apply hA j hj
    show t.hdata.getD j 0 ≠ 0
    have hocc2 : (t.hdata.set (probeT t h) h).getD j 0 ≠ 0 := hocc
    rw [getD_set_ne _ _ _ hcase] at hocc2
    exact hocc2

theorem write_invD (t : Table K V) (h : Nat) (k : K) (v : V)
    (hwf : WF t) (hidx : probeT t h < t.capacity) (hD : invD t) :
    invD (writeT t (probeT t h) h k v) := by
  intro j hj hocc
  show pstart t.capacity ((t.hdata.set (probeT t h) h).getD j 0) ≤ j
  by_cases hcase : probeT t h = j
  · rw [← hcase, getD_set_self _ _ _ _ (hwf.1 ▸ hidx)]
    exact hcase ▸ probeT_ge t h
  · rw [getD_set_ne _ _ _ hcase]
    apply hD j hj
    have hocc2 : (t.hdata.set (probeT t h) h).getD j 0 ≠ 0 := hocc
    rw [getD_set_ne _ _ _ hcase] at hocc2
    exact hocc2

theorem write_invC (t : Table K V) (h : Nat) (k : K) (v : V)
    (hwf : WF t) (hidx : probeT t h < t.capacity) (hC : invC t) :
    invC (writeT t (probeT t h) h k v) := by
  intro j hj hocc
  by_cases hcase : probeT t h = j
  · have hget : (writeT t (probeT t h) h k v).hdata.getD j 0 = h := by
      rw [← hcase]
      exact getD_set_self _ _ _ _ (hwf.1 ▸ hidx)
    rw [hget, ← hcase]
    exact write_probe_self t h k v hwf hidx
  · have hget : (writeT t (probeT t h) h k v).hdata.getD j 0
        = t.hdata.getD j 0 := getD_set_ne _ _ _ hcase
    rw [hget] at hocc ⊢
    exact (write_keep_slot t h k v hwf hidx j hj hocc (hC j hj hocc)).1

theorem write_size_of_zero_hash (t : Table K V) (k : K) (v : V)
    (hwf : WF t) (hidx : probeT t 0 < t.capacity) :
    sizeT (writeT t (probeT t 0) 0 k v) = sizeT t := by
  have hstop := probeT_stop t 0 hidx
  have hget : t.hdata.getD (probeT t 0) 0 = 0 := by tauto
  have hsame : t.hdata.set (probeT t 0) 0 = t.hdata :=
    set_getD_eq _ _ _ 0 (hwf.1 ▸ hidx) hget
  show (t.hdata.set (probeT t 0) 0).countP (fun x => x != 0) = _
  rw [hsame]
  rfl

theorem write_size_of_match (t : Table K V) (h : Nat) (k : K) (v : V)
    (hwf : WF t) (hidx : probeT t h < t.capacity)
    (hmatch : t.hdata.getD (probeT t h) 0 = h) :
    sizeT (writeT t (probeT t h) h k v) = sizeT t := by
  have hsame : t.hdata.set (probeT t h) h = t.hdata :=
    set_getD_eq _ _ _ 0 (hwf.1 ▸ hidx) hmatch
  show (t.hdata.set (probeT t h) h).countP (fun x => x != 0) = _
  rw [hsame]
  rfl

theorem write_size_of_empty (t : Table K V) (h : Nat) (k : K) (v : V)
    (hwf : WF t) (hidx : probeT t h < t.capacity)
    (hemp : t.hdata.getD (probeT t h) 0 = 0) (hh : h ≠ 0) :
    sizeT (writeT t (probeT t h) h k v) = sizeT t + 1 :=
  sizeT_set_fresh t (probeT t h) h (hwf.1 ▸ hidx) hemp hh

theorem write_size_le (t : Table K V) (h : Nat) (k : K) (v : V)
    (hwf : WF t) (hidx : probeT t h < t.capacity) :
    sizeT (writeT t (probeT t h) h k v) ≤ sizeT t + 1 := by
  have hstop := probeT_stop t h hidx
  rcases hstop with h0 | hh
  · by_cases hz : h = 0
    · subst hz
      rw [write_size_of_zero_hash t k v hwf hidx]
      omega
    · rw [write_size_of_empty t h k v hwf hidx h0 hz]
  · rw [write_size_of_match t h k v hwf hidx hh]
    omega

theorem write_vals (t : Table K V) (h : Nat) (k : K) (v : V)
    (x : Nat) (hx : x ∈ (writeT t (probeT t h) h k v).hdata) :
    x ∈ t.hdata ∨ x = h :=
  List.mem_or_eq_of_mem_set hx

theorem write_mem_self (t : Table K V) (h : Nat) (k : K) (v : V)
    (hwf : WF t) (hidx : probeT t h < t.capacity) :
    h ∈ (writeT t (probeT t h) h k v).hdata :=
  List.mem_set t.hdata (probeT t h) (hwf.1 ▸ hidx) h

theorem write_vdata_at_slot [Inhabited V] (t : Table K V) (h : Nat) (k : K)
    (v : V) (hwf : WF t) (hidx : probeT t h < t.capacity) :
    (writeT t (probeT t h) h k v).vdata.getD (probeT t h) default = v :=
  getD_set_self _ _ _ _ (hwf.2.2 ▸ hidx)

/-! ## Erase lemmas -/

theorem eraseT_capacity (hfun : K → Nat) (t : Table K V) (k : K) :
    (eraseT hfun t k).capacity = t.capacity := by
  unfold eraseT
  split <;> rfl

theorem WF_eraseT (hfun : K → Nat) (t : Table K V) (k : K) (hwf : WF t) :
    WF (eraseT hfun t k) := by
  obtain ⟨h1, h2, h3⟩ := hwf
  unfold eraseT
  split
  · exact ⟨by simpa using h1, h2, h3⟩
  · exact ⟨h1, h2, h3⟩

theorem eraseT_noop (hfun : K → Nat) (t : Table K V) (k : K) (hwf : WF t)
    (hnc : containsH t (hfun k) = false) : eraseT hfun t k = t := by
  unfold eraseT
  split
  · next hlt =>
    have hnc2 : ¬ (probeT t (hfun k) < t.capacity ∧
        t.hdata.getD (probeT t (hfun k)) 0 = hfun k) := by
      rw [← containsH_iff]
      simp [hnc]
    have hstop := probeT_stop t (hfun k) hlt
    have hget : t.hdata.getD (probeT t (hfun k)) 0 = 0 := by
      rcases hstop with h0 | hh
      · exact h0
      · exact absurd ⟨hlt, hh⟩ hnc2
    have hsame : t.hdata.set (probeT t (hfun k)) 0 = t.hdata :=
      set_getD_eq _ _ _ 0 (hwf.1 ▸ hlt) hget
    rw [hsame]
  · rfl

theorem eraseT_contains_self (hfun : K → Nat) (t : Table K V) (k : K)
    (hwf : WF t) (hc : containsH t (hfun k) = true) (hh : hfun k ≠ 0) :
    containsH (eraseT hfun t k) (hfun k) = false := by
  rw [containsH_iff] at hc
  obtain ⟨hlt, hget⟩ := hc
  have hht : eraseT hfun t k
      = { t with hdata := t.hdata.set (probeT t (hfun k)) 0 } := by
    unfold eraseT
    rw [if_pos hlt]
  have hprobe : probeT (eraseT hfun t k) (hfun k) = probeT t (hfun k) := by
    rw [hht]
    apply probeT_eq_of
    · exact probeT_ge t (hfun k)
    · exact hlt
    · left
      exact getD_set_self _ _ _ _ (hwf.1 ▸ hlt)
    · intro m hm1 hm2
      show (t.hdata.set (probeT t (hfun k)) 0).getD m 0 ≠ 0 ∧
           (t.hdata.set (probeT t (hfun k)) 0).getD m 0 ≠ hfun k
      rw [getD_set_ne _ _ _ (by omega)]
      exact (probeT_pass t (hfun k) m hm1 hm2).2
  rw [containsH]
  rw [hprobe]
  have : (eraseT hfun t k).hdata.getD (probeT t (hfun k)) 0 = 0 := by
    rw [hht]
    exact getD_set_self _ _ _ _ (hwf.1 ▸ hlt)
  rw [this]
  simp [hh]
  omega

theorem eraseT_size (hfun : K → Nat) (t : Table K V) (k : K)
    (hwf : WF t) (hc : containsH t (hfun k) = true) (hh : hfun k ≠ 0) :
    sizeT (eraseT hfun t k) + 1 = sizeT t := by
  rw [containsH_iff] at hc
  obtain ⟨hlt, hget⟩ := hc
  have hht : eraseT hfun t k
      = { t with hdata := t.hdata.set (probeT t (hfun k)) 0 } := by
    unfold eraseT
    rw [if_pos hlt]
  rw [hht]
  exact sizeT_set_zero t _ (hwf.1 ▸ hlt) (by rw [hget]; exact hh)

theorem eraseT_keep (hfun : K → Nat) (t : Table K V) (k : K) (g : Nat)
    (hg : g ≠ 0) (hc : containsH t g = true)
    (hout : probeT t (hfun k) < pstart t.capacity g ∨
      probeT t g < probeT t (hfun k)) :
    containsH (eraseT hfun t k) g = true := by
  rw [containsH_iff] at hc
  obtain ⟨hlt, hget⟩ := hc
  unfold eraseT
  split
  · have hgeg := probeT_ge t g
    have hne : probeT t (hfun k) ≠ probeT t g := by omega
    rw [containsH_iff]
    rw [probeT_set_out t g (probeT t (hfun k)) 0 hout]
    refine ⟨hlt, ?_⟩
    show (t.hdata.set (probeT t (hfun k)) 0).getD (probeT t g) 0 = g
    rw [getD_set_ne _ _ _ hne]
    exact hget
  · rw [containsH_iff]
    exact ⟨hlt, hget⟩

theorem eraseT_invA [Inhabited K] (hfun : K → Nat) (t : Table K V) (k : K)
    (hA : invA hfun t) : invA hfun (eraseT hfun t k) := by
  unfold eraseT
  split
  · intro j hj hocc
    by_cases hcase : probeT t (hfun k) = j
    · exfalso
      apply hocc
      show (t.hdata.set (probeT t (hfun k)) 0).getD j 0 = 0
      rw [← hcase]
      rcases Nat.lt_or_ge (probeT t (hfun k)) t.hdata.length with hl | hl
      · exact getD_set_self _ _ _ _ hl
      · rw [List.set_eq_of_length_le hl]
        rw [List.getD_eq_getElem?_getD, List.getElem?_eq_none hl]
        rfl
    · have heq : (t.hdata.set (probeT t (hfun k)) 0).getD j 0
          = t.hdata.getD j 0 := getD_set_ne _ _ _ hcase
      show (t.hdata.set (probeT t (hfun k)) 0).getD j 0
          = hfun (t.kdata.getD j default)
      have hocc2 : (t.hdata.set (probeT t (hfun k)) 0).getD j 0 ≠ 0 := hocc
      rw [heq] at hocc2 ⊢
      exact hA j hj hocc2
  · exact hA

theorem eraseT_invD (hfun : K → Nat) (t : Table K V) (k : K)
    (hD : invD t) : invD (eraseT hfun t k) := by
  unfold eraseT
  split
  · intro j hj hocc
    by_cases hcase : probeT t (hfun k) = j
    · exfalso
      apply hocc
      show (t.hdata.set (probeT t (hfun k)) 0).getD j 0 = 0
      rw [← hcase]
      rcases Nat.lt_or_ge (probeT t (hfun k)) t.hdata.length with hl | hl
      · exact getD_set_self _ _ _ _ hl
      · rw [List.set_eq_of_length_le hl]
        rw [List.getD_eq_getElem?_getD, List.getElem?_eq_none hl]
        rfl
    · have heq : (t.hdata.set (probeT t (hfun k)) 0).getD j 0
          = t.hdata.getD j 0 := getD_set_ne _ _ _ hcase
      rw [heq] at hocc ⊢
      exact hD j hj hocc
  · exact hD

theorem eraseT_vals (hfun : K → Nat) (t : Table K V) (k : K) (x : Nat)
    (hx : x ∈ (eraseT hfun t k).hdata) : x ∈ t.hdata ∨ x = 0 := by
  unfold eraseT at hx
  split at hx
  · exact List.mem_or_eq_of_mem_set hx
  · exact Or.inl hx

/-! ## Grow lemmas -/

theorem grow_capacity [Inhabited K] [Inhabited V] (t : Table K V) (c : Nat) :
    (grow t c).capacity = c := rfl

theorem WF_grow [Inhabited K] [Inhabited V] (t : Table K V) (c : Nat)
    (hwf : WF t) (hc : t.capacity ≤ c) : WF (grow t c) := by
  obtain ⟨h1, h2, h3⟩ := hwf
  refine ⟨?_, ?_, ?_⟩ <;>
    simp [grow, h1, h2, h3] <;> omega

theorem grow_getD_lo [Inhabited K] [Inhabited V] (t : Table K V) (c j : Nat)
    (hwf : WF t) (hj : j < t.capacity) :
    (grow t c).hdata.getD j 0 = t.hdata.getD j 0 := by
  show (t.hdata ++ List.replicate (c - t.capacity) 0).getD j 0 = _
  rw [List.getD_eq_getElem?_getD, List.getElem?_append_left (hwf.1 ▸ hj),
    ← List.getD_eq_getElem?_getD]

theorem grow_kdata_lo [Inhabited K] [Inhabited V] (t : Table K V) (c j : Nat)
    (hwf : WF t) (hj : j < t.capacity) :
    (grow t c).kdata.getD j default = t.kdata.getD j default := by
  show (t.kdata ++ List.replicate (c - t.capacity) default).getD j default = _
  rw [List.getD_eq_getElem?_getD, List.getElem?_append_left (hwf.2.1 ▸ hj),
    ← List.getD_eq_getElem?_getD]

theorem grow_vdata_lo [Inhabited K] [Inhabited V] (t : Table K V) (c j : Nat)
    (hwf : WF t) (hj : j < t.capacity) :
    (grow t c).vdata.getD j default = t.vdata.getD j default := by
  show (t.vdata ++ List.replicate (c - t.capacity) default).getD j default = _
  rw [List.getD_eq_getElem?_getD, List.getElem?_append_left (hwf.2.2 ▸ hj),
    ← List.getD_eq_getElem?_getD]

theorem grow_getD_hi [Inhabited K] [Inhabited V] (t : Table K V) (c j : Nat)
    (hwf : WF t) (hj : t.capacity ≤ j) :
    (grow t c).hdata.getD j 0 = 0 := by
  show (t.hdata ++ List.replicate (c - t.capacity) 0).getD j 0 = 0
  rw [List.getD_eq_getElem?_getD, List.getElem?_append_right (hwf.1 ▸ hj)]
  rcases Nat.lt_or_ge (j - t.hdata.length) (c - t.capacity) with hl | hl
  · rw [List.getElem?_eq_getElem (by simpa using hl)]
    simp
  · rw [List.getElem?_eq_none (by simpa using hl)]
    rfl

theorem sizeT_grow [Inhabited K] [Inhabited V] (t : Table K V) (c : Nat) :
    sizeT (grow t c) = sizeT t := by
  show (t.hdata ++ List.replicate (c - t.capacity) 0).countP (fun x => x != 0)
      = t.hdata.countP (fun x => x != 0)
  rw [List.countP_append, List.countP_replicate]
  simp

theorem grow_vals [Inhabited K] [Inhabited V] (t : Table K V) (c : Nat)
    (x : Nat) (hx : x ∈ (grow t c).hdata) : x ∈ t.hdata ∨ x = 0 := by
  have : x ∈ t.hdata ++ List.replicate (c - t.capacity) 0 := hx
  rw [List.mem_append] at this
  rcases this with h | h
  · exact Or.inl h
  · exact Or.inr (List.eq_of_mem_replicate h)

/-! ## Engine equations and fuel monotonicity -/

section Engine

variable [Inhabited K] [Inhabited V] (hfun : K → Nat)

theorem insertF_zero (t : Table K V) (k : K) (v : V) :
    insertF hfun 0 t k v = none := rfl

theorem insertF_succ (fuel : Nat) (t : Table K V) (k : K) (v : V) :
    insertF hfun (fuel + 1) t k v =
      if probeT t (hfun k) < t.capacity then
        some (writeT t (probeT t (hfun k)) (hfun k) k v)
      else
        match reserveF hfun fuel t (if sizeT t = 0 then 1 else t.capacity * 2) with
        | none => none
        | some t1 => insertF hfun fuel t1 k v := rfl

theorem reserveF_succ (fuel : Nat) (t : Table K V) (c : Nat) :
    reserveF hfun (fuel + 1) t c =
      if c < t.capacity then some t
      else reinsF hfun fuel (grow t c) 0 t.capacity := rfl

theorem reinsF_succ (fuel : Nat) (t : Table K V) (i old : Nat) :
    reinsF hfun (fuel + 1) t i old =
      if i < old then
        if t.hdata.getD i 0 ≠ 0 then
          match insertF hfun fuel { t with hdata := t.hdata.set i 0 }
              (t.kdata.getD i default) (t.vdata.getD i default) with
          | none => none
          | some t1 => reinsF hfun fuel t1 (i + 1) old
        else reinsF hfun fuel t (i + 1) old
      else some t := rfl

theorem insertF_of_hit (fuel : Nat) (t : Table K V) (k : K) (v : V)
    (hhit : probeT t (hfun k) < t.capacity) :
    insertF hfun (fuel + 1) t k v =
      some (writeT t (probeT t (hfun k)) (hfun k) k v) := by
  rw [insertF_succ, if_pos hhit]

theorem engine_res_eq (fuel : Nat) (t : Table K V) (c : Nat) (arg) :
    engine hfun (fuel + 1) (Sum.inr (Sum.inl (t, c))) arg =
      if c < t.capacity then some t
      else reinsF hfun fuel (grow t c) 0 t.capacity := by
  rcases arg with ⟨k, v⟩ | ⟨⟩ <;> rfl

theorem engine_reins_eq (fuel : Nat) (t : Table K V) (i old : Nat) (arg) :
    engine hfun (fuel + 1) (Sum.inr (Sum.inr (t, i, old))) arg =
      if i < old then
        if t.hdata.getD i 0 ≠ 0 then
          match insertF hfun fuel { t with hdata := t.hdata.set i 0 }
              (t.kdata.getD i default) (t.vdata.getD i default) with
          | none => none
          | some t1 => reinsF hfun fuel t1 (i + 1) old
        else reinsF hfun fuel t (i + 1) old
      else some t := by
  rcases arg with ⟨k, v⟩ | ⟨⟩ <;> rfl

theorem engine_mono : ∀ (fuel : Nat) call arg (r : Table K V),
    engine hfun fuel call arg = some r →
    engine hfun (fuel + 1) call arg = some r := by
  intro fuel
  induction fuel with
  | zero => intro call arg r hr; simp [engine] at hr
  | succ fuel ih =>
    rintro (t | ⟨t, c⟩ | ⟨t, i, old⟩) arg r hr
    · -- insert call
      rcases arg with ⟨k, v⟩ | ⟨⟩
      · rw [show engine hfun (fuel + 1) (Sum.inl t) (Sum.inl (k, v))
            = insertF hfun (fuel + 1) t k v from rfl,
          insertF_succ] at hr
        rw [show engine hfun (fuel + 1 + 1) (Sum.inl t) (Sum.inl (k, v))
            = insertF hfun (fuel + 1 + 1) t k v from rfl,
          insertF_succ]
        split at hr
        · rw [if_pos (by assumption)]
          exact hr
        · rw [if_neg (by assumption)]
          rcases hres : reserveF hfun fuel t
              (if sizeT t = 0 then 1 else t.capacity * 2) with _ | t1
          · rw [hres] at hr; simp at hr
          · rw [hres] at hr
            simp only at hr
            have h1 : reserveF hfun (fuel + 1) t
                (if sizeT t = 0 then 1 else t.capacity * 2) = some t1 :=
              ih _ _ _ hres
            rw [h1]
            exact ih _ _ _ hr
      · rw [show engine hfun (fuel + 1) (Sum.inl t) (Sum.inr ())
            = none from rfl] at hr
        simp at hr
    · -- reserve call
      rw [engine_res_eq hfun fuel t c arg] at hr
      rw [engine_res_eq hfun (fuel + 1) t c arg]
      split at hr
      · rw [if_pos (by assumption)]; exact hr
      · rw [if_neg (by assumption)]
        exact ih _ _ _ hr
    · -- reinsertion call
      rw [engine_reins_eq hfun fuel t i old arg] at hr
      rw [engine_reins_eq hfun (fuel + 1) t i old arg]
      split at hr
      · split at hr
        · rw [if_pos (by assumption), if_pos (by assumption)]
          rcases hins : insertF hfun fuel { t with hdata := t.hdata.set i 0 }
              (t.kdata.getD i default) (t.vdata.getD i default) with _ | t1
          · rw [hins] at hr; simp at hr
          · rw [hins] at hr
            simp only at hr
            have h1 : insertF hfun (fuel + 1)
                { t with hdata := t.hdata.set i 0 }
                (t.kdata.getD i default) (t.vdata.getD i default)
                = some t1 := ih _ _ _ hins
            rw [h1]
            exact ih _ _ _ hr
        · rw [if_pos (by assumption), if_neg (by assumption)]
          exact ih _ _ _ hr
      · rw [if_neg (by assumption)]
        exact hr

theorem engine_mono_le (f f' : Nat) (hle : f ≤ f') (call arg) (r : Table K V)
    (hr : engine hfun f call arg = some r) :
    engine hfun f' call arg = some r := by
  induction f' with
  | zero =>
    have : f = 0 := by omega
    subst this
    exact hr
  | succ f' ih =>
    rcases Nat.lt_or_ge f (f' + 1) with hlt | hge
    · exact engine_mono hfun f' call arg r (ih (by omega))
    · have : f = f' + 1 := by omega
      subst this
      exact hr

theorem insertF_mono (f f' : Nat) (hle : f ≤ f') (t : Table K V) (k : K)
    (v : V) (r : Table K V) (hr : insertF hfun f t k v = some r) :
    insertF hfun f' t k v = some r :=
  engine_mono_le hfun f f' hle _ _ r hr

theorem reserveF_mono (f f' : Nat) (hle : f ≤ f') (t : Table K V) (c : Nat)
    (r : Table K V) (hr : reserveF hfun f t c = some r) :
    reserveF hfun f' t c = some r :=
  engine_mono_le hfun f f' hle _ _ r hr

end Engine

/-! ## Counting helpers -/

/-- The count change caused by a single `set`, in subtraction-free form. -/
theorem countP_set_balance (l : List Nat) (p : Nat → Bool) (j : Nat)
    (x : Nat) (hj : j < l.length) :
    (l.set j x).countP p + (if p (l.getD j 0) then 1 else 0)
      = l.countP p + (if p x then 1 else 0) := by
  rw [List.countP_set _ _ _ _ hj]
  have hb := List.boole_getElem_le_countP p l j hj
  rw [getD_eq_getElem _ _ _ hj]
  omega

/-- Clearing a slot whose value satisfies `p` lowers the count by one. -/
theorem countP_set_zero_balance (l : List Nat) (p : Nat → Bool) (j : Nat)
    (hj : j < l.length) (hpj : p (l.getD j 0) = true) (hp0 : p 0 = false) :
    (l.set j 0).countP p + 1 = l.countP p := by
  have hb := countP_set_balance l p j 0 hj
  rw [hpj, hp0] at hb
  simpa using hb

/-- Writing a `p`-value over a slot whose value fails `p` raises the count
by one. -/
theorem countP_set_one_balance (l : List Nat) (p : Nat → Bool) (j x : Nat)
    (hj : j < l.length) (hpj : p (l.getD j 0) = false) (hpx : p x = true) :
    (l.set j x).countP p = l.countP p + 1 := by
  have hb := countP_set_balance l p j x hj
  rw [hpj, hpx] at hb
  simpa using hb

/-- If every position from `t1` on satisfies `p`, the count is at least the
number of those positions. -/
theorem countP_ge_from (l : List Nat) (p : Nat → Bool) (t1 : Nat)
    (hall : ∀ j, t1 ≤ j → j < l.length → p (l.getD j 0) = true) :
    l.length - t1 ≤ l.countP p := by
  have hsplit : l = l.take t1 ++ l.drop t1 := (List.take_append_drop t1 l).symm
  have hdrop : (l.drop t1).countP p = (l.drop t1).length := by
    rw [List.countP_eq_length]
    intro a ha
    obtain ⟨q, hq, rfl⟩ := List.getElem_of_mem ha
    rw [List.getElem_drop]
    have hlen : t1 + q < l.length := by
      have := List.length_drop t1 l
      omega
    have := hall (t1 + q) (by omega) hlen
    rw [getD_eq_getElem _ _ _ hlen] at this
    exact this
  calc l.length - t1 ≤ (l.drop t1).length := by
        rw [List.length_drop]
      _ = (l.drop t1).countP p := hdrop.symm
      _ ≤ (l.take t1).countP p + (l.drop t1).countP p := by omega
      _ = l.countP p := by
        conv_rhs => rw [hsplit]
        rw [List.countP_append]

/-- If every position before `m` fails `p`, the count is at most
`length - m`. -/
theorem countP_le_sub (l : List Nat) (p : Nat → Bool) (m : Nat)
    (hm : m ≤ l.length)
    (hlow : ∀ j, j < m → p (l.getD j 0) = false) :
    l.countP p ≤ l.length - m := by
  have hsplit : l = l.take m ++ l.drop m := (List.take_append_drop m l).symm
  have htake : (l.take m).countP p = 0 := by
    rw [List.countP_eq_zero]
    intro a ha
    obtain ⟨q, hq, rfl⟩ := List.getElem_of_mem ha
    rw [List.getElem_take]
    have hql : q < l.length := by
      have := List.length_take m l
      omega
    have hqm : q < m := by
      have := List.length_take m l
      omega
    have := hlow q hqm
    rw [getD_eq_getElem _ _ _ hql] at this
    simp [this]
  have hdrop := @List.countP_le_length Nat p (l.drop m)
  calc l.countP p = (l.take m).countP p + (l.drop m).countP p := by
        conv_lhs => rw [hsplit]
        rw [List.countP_append]
      _ = (l.drop m).countP p := by rw [htake]; omega
      _ ≤ (l.drop m).length := hdrop
      _ = l.length - m := List.length_drop m l

/-- If a value occurs in the list, it occurs after any single `set` unless it
was the value at the written position. -/
theorem mem_set_or {α : Type _} (l : List α) (p : Nat) (y x d : α)
    (hx : x ∈ l) : x = l.getD p d ∨ x ∈ l.set p y := by
  obtain ⟨q, hq, rfl⟩ := List.getElem_of_mem hx
  by_cases hpq : p = q
  · subst hpq
    left
    rw [getD_eq_getElem _ _ _ hq]
  · right
    have h1 : (l.set p y)[q]? = l[q]? := List.getElem?_set_ne hpq
    have h2 : l[q]? = some l[q] := List.getElem?_eq_getElem hq
    exact List.getElem?_mem (h1.trans h2)

/-- Residue counting: occupied slots whose hash residue mod `old` is at
least `m`. -/
def rcount (hd : List Nat) (old m : Nat) : Nat :=
  hd.countP (fun x => x != 0 && decide (m ≤ x % old))

theorem rcount_zero (hd : List Nat) (old : Nat) :
    rcount hd old 0 = hd.countP (fun x => x != 0) := by
  unfold rcount
  congr 1
  funext x
  simp

theorem rcount_le_of_invD (t : Table K V) (hwf : WF t) (hD : invD t)
    (hold : 1 ≤ t.capacity) (m : Nat) (hm : m ≤ t.capacity) :
    rcount t.hdata t.capacity m ≤ t.capacity - m := by
  have := countP_le_sub t.hdata
    (fun x => x != 0 && decide (m ≤ x % t.capacity)) m (hwf.1 ▸ hm) ?_
  · rw [hwf.1] at this
    exact le_trans this (by omega)
  · intro j hj
    show (t.hdata.getD j 0 != 0
        && decide (m ≤ t.hdata.getD j 0 % t.capacity)) = false
    by_cases hocc : t.hdata.getD j 0 = 0
    · rw [show (t.hdata.getD j 0 != 0) = false by rw [hocc]; rfl]
      rfl
    · have hjc : j < t.capacity := by
        have := hwf.1
        rcases Nat.lt_or_ge j t.hdata.length with hl | hl
        · omega
        · exfalso
          apply hocc
          rw [List.getD_eq_getElem?_getD, List.getElem?_eq_none hl]
          rfl
      have hD1 := hD j hjc hocc
      unfold pstart at hD1
      rw [if_neg (by omega)] at hD1
      rw [show (decide (m ≤ t.hdata.getD j 0 % t.capacity)) = false by
        rw [decide_eq_false_iff_not]
        omega]
      simp

/-! ## The reinsertion loop of `reserve`

`reserve` (on a growth call, `c = 2 * old` with `old ≥ 1`) clears each
occupied slot of the old range in ascending order and re-inserts its entry
at the new modulus.  `LoopInv` is the invariant maintained between
iterations. -/

theorem pstart_eq (c y : Nat) (hc : 1 ≤ c) : pstart c y = y % c := by
  unfold pstart
  rw [if_neg (by omega)]

theorem mod_double_lo (x old : Nat) (hold : 1 ≤ old)
    (hlo : x % (2 * old) < old) : x % old = x % (2 * old) := by
  have hdvd : old ∣ 2 * old := Dvd.intro 2 (by ring)
  rw [← Nat.mod_mod_of_dvd x hdvd, Nat.mod_eq_of_lt hlo]

theorem mod_double_hi (x old : Nat) (hold : 1 ≤ old)
    (hhi : old ≤ x % (2 * old)) : x % old = x % (2 * old) - old := by
  have hdvd : old ∣ 2 * old := Dvd.intro 2 (by ring)
  have hlt : x % (2 * old) < 2 * old := Nat.mod_lt _ (by omega)
  rw [← Nat.mod_mod_of_dvd x hdvd, Nat.mod_eq_sub_mod hhi,
    Nat.mod_eq_of_lt (by omega)]

/-- Walking a fully-occupied run downwards from `t1`: either the run reaches
`old`, or it is delimited below by an empty slot. -/
theorem run_down (hd : List Nat) (c old : Nat) :
    ∀ d t1, old ≤ t1 → (∀ m, t1 ≤ m → m < c → hd.getD m 0 ≠ 0) →
      t1 - old ≤ d →
      (∀ m, old ≤ m → m < c → hd.getD m 0 ≠ 0) ∨
      ∃ t2, old < t2 ∧ t2 ≤ t1 ∧ hd.getD (t2 - 1) 0 = 0 ∧
        ∀ m, t2 ≤ m → m < c → hd.getD m 0 ≠ 0 := by
  intro d
  induction d with
  | zero =>
    intro t1 h1 h2 h3
    left
    have : t1 = old := by omega
    subst this
    exact h2
  | succ d ih =>
    intro t1 h1 h2 h3
    rcases eq_or_lt_of_le h1 with rfl | hlt
    · left
      exact h2
    · by_cases hemp : hd.getD (t1 - 1) 0 = 0
      · right
        exact ⟨t1, hlt, le_rfl, hemp, h2⟩
      · have h2x : ∀ m, t1 - 1 ≤ m → m < c → hd.getD m 0 ≠ 0 := by
          intro m hm1 hm2
          rcases eq_or_lt_of_le hm1 with heq | hlt2
          · rw [← heq]
            exact hemp
          · exact h2 m (by omega) hm2
        rcases ih (t1 - 1) (by omega) h2x (by omega) with hfull | ⟨t2, ht2⟩
        · left
          exact hfull
        · right
          exact ⟨t2, ht2.1, by omega, ht2.2.2⟩

structure LoopInv (hfun : K → Nat) [Inhabited K] [Inhabited V]
    (st0 : Table K V) (old c i : Nat) (u : Table K V) : Prop where
  wf : WF u
  capu : u.capacity = c
  pend_h : ∀ j, i ≤ j → j < old → u.hdata.getD j 0 = st0.hdata.getD j 0
  pend_k : ∀ j, i ≤ j → j < old →
    u.kdata.getD j default = st0.kdata.getD j default
  pend_v : ∀ j, i ≤ j → j < old →
    u.vdata.getD j default = st0.vdata.getD j default
  find : ∀ j, j < c → u.hdata.getD j 0 ≠ 0 → (j < i ∨ old ≤ j) →
    probeT u (u.hdata.getD j 0) = j
  upper : ∀ j, old ≤ j → j < c → u.hdata.getD j 0 ≠ 0 →
    old ≤ u.hdata.getD j 0 % c
  resid : ∀ m, rcount u.hdata old m ≤ rcount st0.hdata old m
  inva : invA hfun u
  pres : ∀ h, h ≠ 0 → h ∈ st0.hdata →
    (∃ j, i ≤ j ∧ j < old ∧ st0.hdata.getD j 0 = h) ∨ h ∈ u.hdata
  vals : ∀ x, x ∈ u.hdata → x = 0 ∨ x ∈ st0.hdata
  uniq : invB st0 → invB u
  cnt : invB st0 → sizeT u = sizeT st0

theorem loopInv_base [Inhabited K] [Inhabited V] (hfun : K → Nat)
    (st0 : Table K V) (c : Nat) (hwf0 : WF st0) (hA0 : invA hfun st0)
    (hc : st0.capacity ≤ c) :
    LoopInv hfun st0 st0.capacity c 0 (grow st0 c) := by
  refine ⟨WF_grow st0 c hwf0 hc, rfl, ?_, ?_, ?_, ?_, ?_, ?_, ?_, ?_, ?_, ?_, ?_⟩
  · intro j _ hj2
    exact grow_getD_lo st0 c j hwf0 hj2
  · intro j _ hj2
    exact grow_kdata_lo st0 c j hwf0 hj2
  · intro j _ hj2
    exact grow_vdata_lo st0 c j hwf0 hj2
  · intro j hjc hocc hside
    rcases hside with h | h
    · omega
    · exact absurd (grow_getD_hi st0 c j hwf0 h) hocc
  · intro j hj1 hj2 hocc
    exact absurd (grow_getD_hi st0 c j hwf0 hj1) hocc
  · intro m
    apply le_of_eq
    show (st0.hdata ++ List.replicate (c - st0.capacity) 0).countP _
        = st0.hdata.countP _
    rw [List.countP_append, List.countP_replicate]
    simp
  · intro j hjc hocc
    rcases Nat.lt_or_ge j st0.capacity with hlo | hhi
    · rw [grow_getD_lo st0 c j hwf0 hlo, grow_kdata_lo st0 c j hwf0 hlo]
      rw [grow_getD_lo st0 c j hwf0 hlo] at hocc
      exact hA0 j hlo hocc
    · exact absurd (grow_getD_hi st0 c j hwf0 hhi) hocc
  · intro h hne hmem
    left
    obtain ⟨p, hp, hpe⟩ := List.getElem_of_mem hmem
    exact ⟨p, Nat.zero_le p, hwf0.1 ▸ hp, by rw [getD_eq_getElem _ _ _ hp, hpe]⟩
  · intro x hx
    exact (grow_vals st0 c x hx).symm
  · intro hB p q hp hq hocc heq
    show p = q
    rcases Nat.lt_or_ge p st0.capacity with hplo | hphi
    · rcases Nat.lt_or_ge q st0.capacity with hqlo | hqhi
      · rw [grow_getD_lo st0 c p hwf0 hplo] at hocc heq
        rw [grow_getD_lo st0 c q hwf0 hqlo] at heq
        exact hB p q hplo hqlo hocc heq
      · rw [grow_getD_lo st0 c p hwf0 hplo] at hocc heq
        rw [grow_getD_hi st0 c q hwf0 hqhi] at heq
        exact absurd heq hocc
    · exact absurd (grow_getD_hi st0 c p hwf0 hphi) hocc
  · intro _
    exact sizeT_grow st0 c

/-- The reinsertion probe always succeeds: after clearing slot `i`, probing
for its old entry finds a slot inside the doubled table.  Lower starts stop
at the cleared slot at the latest; upper starts cannot run off the end, by a
counting argument on hash residues. -/
theorem reins_probe_lt [Inhabited K] [Inhabited V] (hfun : K → Nat)
    (st0 : Table K V) (u : Table K V) (i : Nat)
    (hold : 1 ≤ st0.capacity) (hwf0 : WF st0) (hD0 : invD st0)
    (hLI : LoopInv hfun st0 st0.capacity (2 * st0.capacity) i u)
    (hi : i < st0.capacity) (hg : st0.hdata.getD i 0 ≠ 0) :
    probeT { u with hdata := u.hdata.set i 0 } (st0.hdata.getD i 0)
      < 2 * st0.capacity := by
  set old := st0.capacity with hdefold
  set c := 2 * old with hdefc
  set g := st0.hdata.getD i 0 with hdefg
  set u1 : Table K V := { u with hdata := u.hdata.set i 0 } with hdefu1
  have hcap1 : u1.capacity = c := hLI.capu
  have hlenu : u.hdata.length = c := by
    have := hLI.wf.1
    rw [hLI.capu] at this
    exact this
  have hlen1 : u1.hdata.length = c := by
    show (u.hdata.set i 0).length = c
    rw [List.length_set]
    exact hlenu
  have hgi : u.hdata.getD i 0 = g := hLI.pend_h i le_rfl hi
  have hilen : i < u.hdata.length := by omega
  have hgu1 : u1.hdata.getD i 0 = 0 := by
    show (u.hdata.set i 0).getD i 0 = 0
    exact getD_set_self _ _ _ _ hilen
  have hDi : g % old ≤ i := by
    have := hD0 i hi hg
    rw [pstart_eq old _ hold] at this
    exact this
  rcases Nat.lt_or_ge (g % c) old with hA | hB
  · -- lower start: the cleared slot itself is an available stop
    have hmod : g % old = g % c := mod_double_lo g old hold hA
    have hs : pstart u1.capacity g ≤ i := by
      rw [hcap1, pstart_eq c g (by omega)]
      omega
    have hmin := probeT_min u1 g i hs (Or.inl hgu1)
    omega
  · -- upper start: counting contradiction if the probe ran off the end
    by_contra hnc
    have hPe : probeT u1 g = c := by
      have h1 := probeT_le u1 g
      rw [hcap1] at h1
      omega
    have hpass : ∀ m, g % c ≤ m → m < c →
        u1.hdata.getD m 0 ≠ 0 ∧ u1.hdata.getD m 0 ≠ g := by
      intro m h1 h2
      have := probeT_pass u1 g m
        (by rw [hcap1, pstart_eq c g (by omega)]; exact h1)
        (by omega)
      exact this.2
    have hfull_s : ∀ m, g % c ≤ m → m < c → u1.hdata.getD m 0 ≠ 0 :=
      fun m h1 h2 => (hpass m h1 h2).1
    rcases run_down u1.hdata c old (g % c) (g % c) hB hfull_s (by omega) with
      hfull | ⟨t2, ht2a, ht2b, ht2emp, ht2full⟩
    · -- the whole upper half (and everything to the right) is occupied
      have hge := countP_ge_from u1.hdata
        (fun x => x != 0 && decide (0 ≤ x % old)) old ?side1
      case side1 =>
        intro j hj1 hj2
        have hx := hfull j hj1 (by omega)
        show (u1.hdata.getD j 0 != 0 && decide (0 ≤ u1.hdata.getD j 0 % old))
            = true
        simp only [Bool.and_eq_true, bne_iff_ne, ne_eq, decide_eq_true_eq]
        exact ⟨hx, Nat.zero_le _⟩
      rw [hlen1] at hge
      have hbal2 := countP_set_zero_balance u.hdata
        (fun x => x != 0 && decide (0 ≤ x % old)) i hilen
        (by show (u.hdata.getD i 0 != 0 && decide (0 ≤ u.hdata.getD i 0 % old))
              = true
            rw [hgi]
            simp [hg])
        (by simp)
      have hres0 := hLI.resid 0
      have hst0 : rcount st0.hdata old 0 ≤ old := by
        have h1 := @List.countP_le_length Nat
          (fun x => x != 0 && decide (0 ≤ x % old)) st0.hdata
        have h2 := hwf0.1
        unfold rcount
        omega
      unfold rcount at hres0 hst0
      have hgoal : u1.hdata.countP (fun x => x != 0 && decide (0 ≤ x % old))
          = (u.hdata.set i 0).countP
            (fun x => x != 0 && decide (0 ≤ x % old)) := rfl
      omega
    · -- a maximal occupied run `[t2, c)` with an empty slot just below
      set m0 := t2 - old with hdefm0
      have hm0pos : 1 ≤ m0 := by omega
      have hsc : g % c < c := Nat.mod_lt g (by omega)
      have hm0lt : m0 < old := by omega
      -- every slot in the run holds a hash with residue at least `m0`
      have hres : ∀ j, t2 ≤ j → j < c →
          ((u1.hdata.getD j 0) != 0
            && decide (m0 ≤ (u1.hdata.getD j 0) % old)) = true := by
        intro j hj1 hj2
        have hocc1 : u1.hdata.getD j 0 ≠ 0 := ht2full j hj1 hj2
        have hji : i ≠ j := by omega
        have huj : u1.hdata.getD j 0 = u.hdata.getD j 0 := by
          show (u.hdata.set i 0).getD j 0 = u.hdata.getD j 0
          exact getD_set_ne _ _ _ hji
        have occu : u.hdata.getD j 0 ≠ 0 := by
          rw [huj] at hocc1
          exact hocc1
        have hup := hLI.upper j (by omega) hj2 occu
        have hfind := hLI.find j hj2 occu (Or.inr (by omega))
        have htrans : probeT u1 (u.hdata.getD j 0) = j := by
          rw [hdefu1]
          rw [probeT_set_out u (u.hdata.getD j 0) i 0 ?out]
          case out =>
            left
            have : pstart u.capacity (u.hdata.getD j 0)
                = u.hdata.getD j 0 % c := by
              rw [hLI.capu, pstart_eq c _ (by omega)]
            omega
          exact hfind
        have hjc : t2 ≤ u.hdata.getD j 0 % c := by
          by_contra hjc
          push_neg at hjc
          have hp := probeT_pass u1 (u.hdata.getD j 0) (t2 - 1)
            (by rw [hcap1, pstart_eq c _ (by omega)]; omega)
            (by rw [htrans]; omega)
          exact hp.2.1 ht2emp
        have hmod2 : m0 ≤ u.hdata.getD j 0 % old := by
          have hup2 : old ≤ u.hdata.getD j 0 % (2 * old) := by
            rw [← hdefc]
            omega
          have hx := mod_double_hi (u.hdata.getD j 0) old hold hup2
          rw [← hdefc] at hx
          omega
        rw [huj]
        simp only [Bool.and_eq_true, bne_iff_ne, ne_eq, decide_eq_true_eq]
        exact ⟨occu, hmod2⟩
      have hge := countP_ge_from u1.hdata
        (fun x => x != 0 && decide (m0 ≤ x % old)) t2 ?side2
      case side2 =>
        intro j hj1 hj2
        exact hres j hj1 (by omega)
      rw [hlen1] at hge
      -- the in-flight entry also has residue at least `m0`
      have hgres : m0 ≤ g % old := by
        have hup2 : old ≤ g % (2 * old) := by
          rw [← hdefc]
          omega
        have hx := mod_double_hi g old hold hup2
        rw [← hdefc] at hx
        omega
      have hbal2 := countP_set_zero_balance u.hdata
        (fun x => x != 0 && decide (m0 ≤ x % old)) i hilen
        (by show (u.hdata.getD i 0 != 0 && decide (m0 ≤ u.hdata.getD i 0 % old))
              = true
            rw [hgi]
            simp [hg, hgres])
        (by simp)
      have hresm := hLI.resid m0
      have hst0 := rcount_le_of_invD st0 hwf0 hD0 hold m0 (by omega)
      rw [← hdefold] at hst0
      unfold rcount at hresm hst0
      have hgoal : u1.hdata.countP (fun x => x != 0 && decide (m0 ≤ x % old))
          = (u.hdata.set i 0).countP
            (fun x => x != 0 && decide (m0 ≤ x % old)) := rfl
      omega

/-- Clearing a slot holding `g` and then writing `g` over an empty-or-`g`
slot never raises a count. -/
theorem countP_clear_write_le (l : List Nat) (p : Nat → Bool)
    (hp0 : p 0 = false) (i idx g : Nat) (hil : i < l.length)
    (hgl : l.getD i 0 = g)
    (hstop : (l.set i 0).getD idx 0 = 0 ∨ (l.set i 0).getD idx 0 = g) :
    ((l.set i 0).set idx g).countP p ≤ l.countP p := by
  have hb1 := countP_set_balance l p i 0 hil
  rw [hgl, hp0] at hb1
  rw [show (if (false : Bool) = true then (1 : Nat) else 0) = 0 from rfl]
    at hb1
  rcases Nat.lt_or_ge idx (l.set i 0).length with hidxl | hidxl
  · have hb2 := countP_set_balance (l.set i 0) p idx g hidxl
    rcases hstop with h0 | hgid
    · rw [h0, hp0] at hb2
      rw [show (if (false : Bool) = true then (1 : Nat) else 0) = 0 from rfl]
        at hb2
      by_cases hpg : p g = true
      · rw [if_pos hpg] at hb1 hb2
        omega
      · rw [if_neg hpg] at hb1 hb2
        omega
    · have hsame : (l.set i 0).set idx g = l.set i 0 :=
        set_getD_eq _ _ _ 0 hidxl hgid
      rw [hsame]
      by_cases hpg : p g = true
      · rw [if_pos hpg] at hb1
        omega
      · rw [if_neg hpg] at hb1
        omega
  · rw [List.set_eq_of_length_le (by omega)]
    by_cases hpg : p g = true
    · rw [if_pos hpg] at hb1
      omega
    · rw [if_neg hpg] at hb1
      omega

theorem WF_set_hdata (u : Table K V) (p x : Nat) (hwf : WF u) :
    WF { u with hdata := u.hdata.set p x } := by
  obtain ⟨h1, h2, h3⟩ := hwf
  exact ⟨by simpa using h1, h2, h3⟩

/-- One iteration of the reinsertion loop preserves the invariant. -/
theorem loopInv_step [Inhabited K] [Inhabited V] (hfun : K → Nat)
    (st0 u : Table K V) (i : Nat)
    (hold : 1 ≤ st0.capacity) (hwf0 : WF st0) (hD0 : invD st0)
    (hLI : LoopInv hfun st0 st0.capacity (2 * st0.capacity) i u)
    (hi : i < st0.capacity) (hg : st0.hdata.getD i 0 ≠ 0) :
    LoopInv hfun st0 st0.capacity (2 * st0.capacity) (i + 1)
      (writeT { u with hdata := u.hdata.set i 0 }
        (probeT { u with hdata := u.hdata.set i 0 } (st0.hdata.getD i 0))
        (st0.hdata.getD i 0)
        (u.kdata.getD i default) (u.vdata.getD i default)) := by
  set old := st0.capacity with hdefold
  set c := 2 * old with hdefc
  set g := st0.hdata.getD i 0 with hdefg
  set u1 : Table K V := { u with hdata := u.hdata.set i 0 } with hdefu1
  set k := u.kdata.getD i default with hdefk
  set v := u.vdata.getD i default with hdefv
  set idx := probeT u1 g with hdefidx
  set u2 : Table K V := writeT u1 idx g k v with hdefu2
  have hcap1 : u1.capacity = c := hLI.capu
  have hlenu : u.hdata.length = c := by
    have := hLI.wf.1
    rw [hLI.capu] at this
    exact this
  have hgi : u.hdata.getD i 0 = g := hLI.pend_h i le_rfl hi
  have hilen : i < u.hdata.length := by omega
  have hwf1 : WF u1 := WF_set_hdata u i 0 hLI.wf
  have hlen1 : u1.hdata.length = c := by
    show (u.hdata.set i 0).length = c
    rw [List.length_set]
    exact hlenu
  have hgu1 : u1.hdata.getD i 0 = 0 := by
    show (u.hdata.set i 0).getD i 0 = 0
    exact getD_set_self _ _ _ _ hilen
  have hidxc : idx < c := reins_probe_lt hfun st0 u i hold hwf0 hD0 hLI hi hg
  have hidx : idx < u1.capacity := by omega
  have hidxlen : idx < u1.hdata.length := by omega
  have hfk : g = hfun k := by
    have := hLI.inva i (by rw [hLI.capu]; omega) (by rw [hgi]; exact hg)
    rw [hgi] at this
    exact this
  have hstop := probeT_stop u1 g hidx
  have hDi : g % old ≤ i := by
    have := hD0 i hi hg
    rw [pstart_eq old _ hold] at this
    exact this
  have hpos : (g % c < old ∧ idx ≤ i) ∨ (old ≤ g % c ∧ old ≤ idx) := by
    rcases Nat.lt_or_ge (g % c) old with hA | hB
    · left
      refine ⟨hA, ?_⟩
      have hmod : g % old = g % c := mod_double_lo g old hold
        (by rw [← hdefc]; omega)
      exact probeT_min u1 g i
        (by rw [hcap1, pstart_eq c g (by omega)]; omega) (Or.inl hgu1)
    · right
      refine ⟨hB, ?_⟩
      have := probeT_ge u1 g
      rw [hcap1, pstart_eq c g (by omega)] at this
      omega
  have hne_pend : ∀ j, i + 1 ≤ j → j < old → idx ≠ j := by
    intro j hj1 hj2
    rcases hpos with ⟨-, h⟩ | ⟨-, h⟩ <;> omega
  have hg2 : u2.hdata.getD idx 0 = g := by
    show (u1.hdata.set idx g).getD idx 0 = g
    exact getD_set_self _ _ _ _ hidxlen
  -- findability of untouched occupied slots, transferred from `u` to `u1`
  have hfind1 : ∀ j, j < c → j ≠ i → u.hdata.getD j 0 ≠ 0 →
      (j < i ∨ old ≤ j) → probeT u1 (u.hdata.getD j 0) = j := by
    intro j hj hne hocc hside
    have hfind := hLI.find j hj hocc hside
    show probeT { u with hdata := u.hdata.set i 0 } (u.hdata.getD j 0) = j
    rw [probeT_set_out u (u.hdata.getD j 0) i 0 ?side]
    case side =>
      rcases hside with hlt | hge
      · right
        omega
      · left
        have hup := hLI.upper j hge hj hocc
        have : pstart u.capacity (u.hdata.getD j 0)
            = u.hdata.getD j 0 % c := by
          rw [hLI.capu, pstart_eq c _ (by omega)]
        omega
    exact hfind
  refine ⟨WF_writeT u1 idx g k v hwf1, hLI.capu, ?_, ?_, ?_, ?_, ?_, ?_, ?_,
    ?_, ?_, ?_, ?_⟩
  · -- pend_h
    intro j hj1 hj2
    have hne1 := hne_pend j hj1 hj2
    show (u1.hdata.set idx g).getD j 0 = st0.hdata.getD j 0
    rw [getD_set_ne _ _ _ hne1]
    show (u.hdata.set i 0).getD j 0 = st0.hdata.getD j 0
    rw [getD_set_ne _ _ _ (by omega)]
    exact hLI.pend_h j (by omega) hj2
  · -- pend_k
    intro j hj1 hj2
    have hne1 := hne_pend j hj1 hj2
    show (u1.kdata.set idx k).getD j default = st0.kdata.getD j default
    rw [getD_set_ne _ _ _ hne1]
    exact hLI.pend_k j (by omega) hj2
  · -- pend_v
    intro j hj1 hj2
    have hne1 := hne_pend j hj1 hj2
    show (u1.vdata.set idx v).getD j default = st0.vdata.getD j default
    rw [getD_set_ne _ _ _ hne1]
    exact hLI.pend_v j (by omega) hj2
  · -- find
    intro j hj hocc hside
    by_cases hcase : j = idx
    · subst hcase
      rw [hg2]
      have := write_probe_self u1 g k v hwf1 hidx
      exact this
    · have hval : u2.hdata.getD j 0 = u1.hdata.getD j 0 := by
        show (u1.hdata.set idx g).getD j 0 = u1.hdata.getD j 0
        exact getD_set_ne _ _ _ (by omega)
      rw [hval] at hocc ⊢
      by_cases hji : j = i
      · subst hji
        exact absurd hgu1 hocc
      · have hvalu : u1.hdata.getD j 0 = u.hdata.getD j 0 := by
          show (u.hdata.set i 0).getD j 0 = u.hdata.getD j 0
          exact getD_set_ne _ _ _ (by omega)
        have hoccu : u.hdata.getD j 0 ≠ 0 := by
          rw [hvalu] at hocc
          exact hocc
        have hsideu : j < i ∨ old ≤ j := by
          rcases hside with h | h
          · left
            omega
          · right
            exact h
        have hf1 := hfind1 j hj hji hoccu hsideu
        have := write_keep_slot u1 g k v hwf1 hidx j (by omega)
          hocc (by rw [hvalu]; exact hf1)
        rw [hvalu] at this ⊢
        exact this.1
  · -- upper
    intro j hj1 hj2 hocc
    by_cases hcase : j = idx
    · subst hcase
      rw [hg2]
      rcases hpos with ⟨-, hle⟩ | ⟨hge, -⟩
      · omega
      · exact hge
    · have hval : u2.hdata.getD j 0 = u1.hdata.getD j 0 := by
        show (u1.hdata.set idx g).getD j 0 = u1.hdata.getD j 0
        exact getD_set_ne _ _ _ (by omega)
      rw [hval] at hocc ⊢
      have hji : j ≠ i := by omega
      have hvalu : u1.hdata.getD j 0 = u.hdata.getD j 0 := by
        show (u.hdata.set i 0).getD j 0 = u.hdata.getD j 0
        exact getD_set_ne _ _ _ (by omega)
      rw [hvalu] at hocc ⊢
      exact hLI.upper j hj1 hj2 hocc
  · -- resid
    intro m
    have hle := countP_clear_write_le u.hdata
      (fun x => x != 0 && decide (m ≤ x % old)) (by simp) i idx g hilen hgi
      hstop
    have hres := hLI.resid m
    unfold rcount at hres ⊢
    have hgoal : u2.hdata.countP (fun x => x != 0 && decide (m ≤ x % old))
        = ((u.hdata.set i 0).set idx g).countP
          (fun x => x != 0 && decide (m ≤ x % old)) := rfl
    omega
  · -- invA
    have hAs : invA hfun u1 := by
      intro j hj hocc
      by_cases hji : j = i
      · subst hji
        exact absurd hgu1 hocc
      · have hvalu : u1.hdata.getD j 0 = u.hdata.getD j 0 := by
          show (u.hdata.set i 0).getD j 0 = u.hdata.getD j 0
          exact getD_set_ne _ _ _ (by omega)
        have hocc2 : u.hdata.getD j 0 ≠ 0 := by
          rw [hvalu] at hocc
          exact hocc
        show u1.hdata.getD j 0 = hfun (u.kdata.getD j default)
        rw [hvalu]
        exact hLI.inva j hj hocc2
    exact write_invA hfun u1 g k v hwf1 hidx hfk hAs
  · -- pres
    intro h hne hmem
    rcases hLI.pres h hne hmem with ⟨j, hj1, hj2, hj3⟩ | hmem2
    · rcases eq_or_lt_of_le hj1 with rfl | hlt
      · right
        rw [← hdefg] at hj3
        rw [← hj3]
        show g ∈ u1.hdata.set idx g
        exact List.mem_set u1.hdata idx (by omega) g
      · left
        exact ⟨j, by omega, hj2, hj3⟩
    · right
      rcases mem_set_or u.hdata i 0 h 0 hmem2 with heq | hmem3
      · rw [hgi] at heq
        subst heq
        show g ∈ u1.hdata.set idx g
        exact List.mem_set u1.hdata idx (by omega) g
      · rcases mem_set_or (u.hdata.set i 0) idx g h 0 hmem3 with heq | hmem4
        · rcases hstop with h0 | hgid
          · rw [show (u.hdata.set i 0).getD idx 0
                = u1.hdata.getD idx 0 from rfl, h0] at heq
            exact absurd heq hne
          · rw [show (u.hdata.set i 0).getD idx 0
                = u1.hdata.getD idx 0 from rfl, hgid] at heq
            subst heq
            show g ∈ u1.hdata.set idx g
            exact List.mem_set u1.hdata idx (by omega) g
        · exact hmem4
  · -- vals
    intro x hx
    rcases List.mem_or_eq_of_mem_set hx with hx1 | hx1
    · rcases List.mem_or_eq_of_mem_set hx1 with hx2 | hx2
      · exact hLI.vals x hx2
      · left
        exact hx2
    · right
      rw [hx1, hdefg]
      exact getD_mem_of_lt st0.hdata i 0 (hwf0.1 ▸ hi)
  · -- uniq
    intro hB
    have hBu := hLI.uniq hB
    have hnog : ∀ q, u1.hdata.getD q 0 ≠ g := by
      intro q
      by_cases hqlen : q < u1.hdata.length
      · by_cases hqi : q = i
        · subst hqi
          rw [hgu1]
          exact fun heq => hg heq.symm
        · show (u.hdata.set i 0).getD q 0 ≠ g
          rw [getD_set_ne _ _ _ (by omega)]
          intro heq
          have hqcap : q < u.capacity := by
            have := hLI.wf.1
            omega
          have hicap : i < u.capacity := by
            have := hLI.wf.1
            omega
          have := hBu q i hqcap hicap (by rw [heq]; exact hg)
            (by rw [heq, hgi])
          exact hqi this
      · show u1.hdata.getD q 0 ≠ g
        rw [List.getD_eq_getElem?_getD, List.getElem?_eq_none (by omega)]
        exact fun heq => hg (by simpa using heq.symm)
    intro p q hp hq hocc heq
    have hcapu2 : u2.capacity = c := hLI.capu
    by_cases hpi : p = idx
    · by_cases hqi : q = idx
      · rw [hpi, hqi]
      · exfalso
        rw [hpi, hg2] at heq
        have hvq : u2.hdata.getD q 0 = u1.hdata.getD q 0 := by
          show (u1.hdata.set idx g).getD q 0 = u1.hdata.getD q 0
          exact getD_set_ne _ _ _ (by omega)
        rw [hvq] at heq
        exact hnog q heq.symm
    · have hvp : u2.hdata.getD p 0 = u1.hdata.getD p 0 := by
        show (u1.hdata.set idx g).getD p 0 = u1.hdata.getD p 0
        exact getD_set_ne _ _ _ (by omega)
      by_cases hqi : q = idx
      · exfalso
        rw [hqi, hg2] at heq
        rw [hvp] at heq
        exact hnog p heq
      · have hvq : u2.hdata.getD q 0 = u1.hdata.getD q 0 := by
          show (u1.hdata.set idx g).getD q 0 = u1.hdata.getD q 0
          exact getD_set_ne _ _ _ (by omega)
        rw [hvp] at hocc heq
        rw [hvq] at heq
        have hpi2 : p ≠ i := by
          intro hpe
          rw [hpe, hgu1] at hocc
          exact hocc rfl
        have hqi2 : q ≠ i := by
          intro hqe
          rw [hqe, hgu1] at heq
          have : u1.hdata.getD p 0 = 0 := heq
          exact hocc this
        have hvpu : u1.hdata.getD p 0 = u.hdata.getD p 0 := by
          show (u.hdata.set i 0).getD p 0 = u.hdata.getD p 0
          exact getD_set_ne _ _ _ (by omega)
        have hvqu : u1.hdata.getD q 0 = u.hdata.getD q 0 := by
          show (u.hdata.set i 0).getD q 0 = u.hdata.getD q 0
          exact getD_set_ne _ _ _ (by omega)
        rw [hvpu] at hocc heq
        rw [hvqu] at heq
        exact hBu p q (by rw [hLI.capu]; omega) (by rw [hLI.capu]; omega)
          hocc heq
  · -- cnt
    intro hB
    have hBu := hLI.uniq hB
    have hnog : ∀ q, u1.hdata.getD q 0 ≠ g := by
      intro q
      by_cases hqlen : q < u1.hdata.length
      · by_cases hqi : q = i
        · subst hqi
          rw [hgu1]
          exact fun heq => hg heq.symm
        · show (u.hdata.set i 0).getD q 0 ≠ g
          rw [getD_set_ne _ _ _ (by omega)]
          intro heq
          have hqcap : q < u.capacity := by
            have := hLI.wf.1
            omega
          have hicap : i < u.capacity := by
            have := hLI.wf.1
            omega
          have := hBu q i hqcap hicap (by rw [heq]; exact hg)
            (by rw [heq, hgi])
          exact hqi this
      · show u1.hdata.getD q 0 ≠ g
        rw [List.getD_eq_getElem?_getD, List.getElem?_eq_none (by omega)]
        exact fun heq => hg (by simpa using heq.symm)
    have hstop0 : u1.hdata.getD idx 0 = 0 := by
      rcases hstop with h0 | hgid
      · exact h0
      · exact absurd hgid (hnog idx)
    have h1 : sizeT u1 + 1 = sizeT u :=
      sizeT_set_zero u i hilen (by rw [hgi]; exact hg)
    have h2 : sizeT u2 = sizeT u1 + 1 :=
      write_size_of_empty u1 g k v hwf1 hidx hstop0 (fun heq => hg heq)
    have h3 := hLI.cnt hB
    omega

/-- Once the loop index has passed the old range, the invariant holds at
index `old` itself. -/
theorem loopInv_done [Inhabited K] [Inhabited V] (hfun : K → Nat)
    (st0 u : Table K V) (old c i : Nat) (hge : old ≤ i)
    (hLI : LoopInv hfun st0 old c i u) : LoopInv hfun st0 old c old u := by
  refine ⟨hLI.wf, hLI.capu, ?_, ?_, ?_, ?_, hLI.upper, hLI.resid, hLI.inva,
    ?_, hLI.vals, hLI.uniq, hLI.cnt⟩
  · intro j hj1 hj2
    exact hLI.pend_h j (by omega) hj2
  · intro j hj1 hj2
    exact hLI.pend_k j (by omega) hj2
  · intro j hj1 hj2
    exact hLI.pend_v j (by omega) hj2
  · intro j hj hocc _
    apply hLI.find j hj hocc
    omega
  · intro h hne hmem
    rcases hLI.pres h hne hmem with ⟨j, hj1, hj2, _⟩ | hmem2
    · left
      exact ⟨j, by omega, hj2, by assumption⟩
    · right
      exact hmem2

/-- Skipping an empty slot preserves the invariant. -/
theorem loopInv_skip [Inhabited K] [Inhabited V] (hfun : K → Nat)
    (st0 u : Table K V) (old c i : Nat) (hi : i < old)
    (hg : st0.hdata.getD i 0 = 0)
    (hLI : LoopInv hfun st0 old c i u) : LoopInv hfun st0 old c (i + 1) u := by
  refine ⟨hLI.wf, hLI.capu, ?_, ?_, ?_, ?_, hLI.upper, hLI.resid, hLI.inva,
    ?_, hLI.vals, hLI.uniq, hLI.cnt⟩
  · intro j hj1 hj2
    exact hLI.pend_h j (by omega) hj2
  · intro j hj1 hj2
    exact hLI.pend_k j (by omega) hj2
  · intro j hj1 hj2
    exact hLI.pend_v j (by omega) hj2
  · intro j hj hocc hside
    apply hLI.find j hj hocc
    rcases hside with hlt | hge2
    · by_cases hji : j = i
      · subst hji
        rw [hLI.pend_h j le_rfl hi, hg] at hocc
        exact absurd rfl hocc
      · left
        omega
    · right
      exact hge2
  · intro h hne hmem
    rcases hLI.pres h hne hmem with ⟨j, hj1, hj2, hj3⟩ | hmem2
    · left
      refine ⟨j, ?_, hj2, hj3⟩
      rcases eq_or_lt_of_le hj1 with rfl | hlt
      · rw [hg] at hj3
        exact absurd hj3.symm hne
      · omega
    · right
      exact hmem2

/-- Running the whole reinsertion loop: it completes on any sufficient fuel
and establishes the invariant at index `old`. -/
theorem reins_loop [Inhabited K] [Inhabited V] (hfun : K → Nat)
    (st0 : Table K V) (hold : 1 ≤ st0.capacity) (hwf0 : WF st0)
    (hD0 : invD st0) :
    ∀ d i u, st0.capacity - i ≤ d →
      LoopInv hfun st0 st0.capacity (2 * st0.capacity) i u →
      ∃ u2, (∀ f, st0.capacity - i + 1 ≤ f →
          reinsF hfun f u i st0.capacity = some u2) ∧
        LoopInv hfun st0 st0.capacity (2 * st0.capacity) st0.capacity u2 := by
  intro d
  induction d with
  | zero =>
    intro i u hd hLI
    refine ⟨u, ?_, loopInv_done hfun st0 u _ _ i (by omega) hLI⟩
    intro f hf
    obtain ⟨f2, rfl⟩ : ∃ f2, f = f2 + 1 := ⟨f - 1, by omega⟩
    rw [reinsF_succ, if_neg (by omega)]
  | succ d ih =>
    intro i u hd hLI
    rcases Nat.lt_or_ge i st0.capacity with hio | hio
    · by_cases hg : st0.hdata.getD i 0 = 0
      · -- empty slot: skip
        have hski := loopInv_skip hfun st0 u _ _ i hio hg hLI
        obtain ⟨u3, hfuel3, hpost⟩ := ih (i + 1) u (by omega) hski
        refine ⟨u3, ?_, hpost⟩
        intro f hf
        obtain ⟨f2, rfl⟩ : ∃ f2, f = f2 + 1 := ⟨f - 1, by omega⟩
        rw [reinsF_succ, if_pos hio, if_neg ?occ]
        case occ =>
          rw [hLI.pend_h i le_rfl hio, hg]
          simp
        exact hfuel3 f2 (by omega)
      · -- occupied slot: clear and re-insert
        have hstep := loopInv_step hfun st0 u i hold hwf0 hD0 hLI hio hg
        obtain ⟨u3, hfuel3, hpost⟩ := ih (i + 1) _ (by omega) hstep
        refine ⟨u3, ?_, hpost⟩
        intro f hf
        obtain ⟨f2, rfl⟩ : ∃ f2, f = f2 + 1 := ⟨f - 1, by omega⟩
        rw [reinsF_succ, if_pos hio, if_pos ?occ]
        case occ =>
          rw [hLI.pend_h i le_rfl hio]
          exact hg
        have hfk : st0.hdata.getD i 0 = hfun (u.kdata.getD i default) := by
          have hgi : u.hdata.getD i 0 = st0.hdata.getD i 0 :=
            hLI.pend_h i le_rfl hio
          have := hLI.inva i (by rw [hLI.capu]; omega) (by rw [hgi]; exact hg)
          rw [hgi] at this
          exact this
        have hidx : probeT { u with hdata := u.hdata.set i 0 }
            (st0.hdata.getD i 0) < 2 * st0.capacity :=
          reins_probe_lt hfun st0 u i hold hwf0 hD0 hLI hio hg
        have hcap1 : ({ u with hdata := u.hdata.set i 0 } : Table K V).capacity
            = 2 * st0.capacity := hLI.capu
        obtain ⟨f3, rfl⟩ : ∃ f3, f2 = f3 + 1 := ⟨f2 - 1, by omega⟩
        have hins : insertF hfun (f3 + 1) { u with hdata := u.hdata.set i 0 }
            (u.kdata.getD i default) (u.vdata.getD i default) =
            some (writeT { u with hdata := u.hdata.set i 0 }
              (probeT { u with hdata := u.hdata.set i 0 }
                (st0.hdata.getD i 0))
              (st0.hdata.getD i 0)
              (u.kdata.getD i default) (u.vdata.getD i default)) := by
          rw [insertF_of_hit hfun f3 _ _ _ (by rw [← hfk]; omega)]
          rw [← hfk]
        rw [hins]
        exact hfuel3 (f3 + 1) (by omega)
    · refine ⟨u, ?_, loopInv_done hfun st0 u _ _ i (by omega) hLI⟩
      intro f hf
      obtain ⟨f2, rfl⟩ : ∃ f2, f = f2 + 1 := ⟨f - 1, by omega⟩
      rw [reinsF_succ, if_neg (by omega)]

/-- `reserve(2 * capacity)` on a well-formed table satisfying the
reachability invariants: it succeeds on any sufficient fuel, preserves
membership and never increases the size. -/
theorem reserve_grow_spec [Inhabited K] [Inhabited V] (hfun : K → Nat)
    (st0 : Table K V) (hold : 1 ≤ st0.capacity) (hwf0 : WF st0)
    (hA0 : invA hfun st0) (hD0 : invD st0) :
    ∃ u2, (∀ f, st0.capacity + 2 ≤ f →
        reserveF hfun f st0 (2 * st0.capacity) = some u2) ∧
      WF u2 ∧ u2.capacity = 2 * st0.capacity ∧ invA hfun u2 ∧ invC u2 ∧
      sizeT u2 ≤ sizeT st0 ∧
      (∀ h, h ≠ 0 → containsH st0 h = true → containsH u2 h = true) ∧
      (∀ x, x ∈ u2.hdata → x = 0 ∨ x ∈ st0.hdata) ∧
      (invB st0 → sizeT u2 = sizeT st0) := by
  have hbase := loopInv_base hfun st0 (2 * st0.capacity) hwf0 hA0 (by omega)
  obtain ⟨u2, hfuel, hpost⟩ := reins_loop hfun st0 hold hwf0 hD0
    st0.capacity 0 (grow st0 (2 * st0.capacity)) (by omega) hbase
  have hwf2 := hpost.wf
  have hcap2 := hpost.capu
  have hlen2 : u2.hdata.length = 2 * st0.capacity := by
    have := hwf2.1
    omega
  have hfind2 : invC u2 := by
    intro j hj hocc
    exact hpost.find j (by omega) hocc (by omega)
  refine ⟨u2, ?_, hwf2, hcap2, hpost.inva, hfind2, ?_, ?_, hpost.vals, ?_⟩
  · intro f hf
    obtain ⟨f2, rfl⟩ : ∃ f2, f = f2 + 1 := ⟨f - 1, by omega⟩
    rw [reserveF_succ, if_neg (by omega)]
    exact hfuel f2 (by omega)
  · have hr := hpost.resid 0
    rw [rcount_zero, rcount_zero] at hr
    exact hr
  · intro h hne hc
    rw [containsH_iff] at hc
    obtain ⟨hlt, hget⟩ := hc
    have hmem : h ∈ st0.hdata := by
      rw [← hget]
      exact getD_mem_of_lt st0.hdata _ 0 (hwf0.1 ▸ hlt)
    rcases hpost.pres h hne hmem with ⟨j, hj1, hj2, _⟩ | hmem2
    · omega
    · obtain ⟨p, hp, hpe⟩ := List.getElem_of_mem hmem2
      have hpget : u2.hdata.getD p 0 = h := by
        rw [getD_eq_getElem _ _ _ hp, hpe]
      have hfind := hfind2 p (by omega) (by rw [hpget]; exact hne)
      rw [hpget] at hfind
      rw [containsH_iff, hfind]
      exact ⟨by omega, hpget⟩
  · intro hB
    exact hpost.cnt hB

/-- `reserve(1)` on an empty zero-capacity table just allocates a single
empty slot. -/
theorem reserveF_cap_zero [Inhabited K] [Inhabited V] (hfun : K → Nat)
    (st : Table K V) (hcap : st.capacity = 0) :
    ∀ f, 2 ≤ f → reserveF hfun f st 1 = some (grow st 1) := by
  intro f hf
  obtain ⟨f2, rfl⟩ : ∃ f2, f = f2 + 1 := ⟨f - 1, by omega⟩
  rw [reserveF_succ, if_neg (by omega)]
  obtain ⟨f3, rfl⟩ : ∃ f3, f2 = f3 + 1 := ⟨f2 - 1, by omega⟩
  rw [hcap, reinsF_succ, if_neg (by omega)]

theorem reserveF_cap_zero_inv [Inhabited K] [Inhabited V] (hfun : K → Nat)
    (st t1 : Table K V) (hcap : st.capacity = 0) (fuel : Nat)
    (hres : reserveF hfun fuel st 1 = some t1) : t1 = grow st 1 := by
  rcases fuel with _ | fuel
  · simp [reserveF, engine] at hres
  · rw [reserveF_succ, if_neg (by omega), hcap] at hres
    rcases fuel with _ | fuel
    · simp [reinsF, engine] at hres
    · rw [reinsF_succ, if_neg (by omega)] at hres
      exact (Option.some_inj.mp hres).symm

/-! ## The insert operation: postconditions and termination -/

/-- What one completed `insert` call guarantees, relative to its start
state.  `h` is the inserted key's hash. -/
structure InsPost [Inhabited K] [Inhabited V] (hfun : K → Nat)
    (t t' : Table K V) (h : Nat) : Prop where
  wf : WF t'
  cap_mono : t.capacity ≤ t'.capacity
  inva : invA hfun t'
  invd : invD t'
  keep : ∀ g, g ≠ 0 → containsH t g = true → containsH t' g = true
  self : containsH t' h = true
  size_le : sizeT t' ≤ sizeT t + 1
  size_zero : h = 0 → sizeT t' ≤ sizeT t
  vals : ∀ x, x ∈ t'.hdata → x = 0 ∨ x ∈ t.hdata ∨ x = h
  invc : invC t → invC t'
  size_fresh : invC t → h ≠ 0 → ¬ h ∈ t.hdata → sizeT t' = sizeT t + 1
  size_dup : invC t → h ≠ 0 → h ∈ t.hdata → sizeT t' = sizeT t
  size_zero_c : invC t → h = 0 → sizeT t' = sizeT t

/-- A failed probe forces the table to be nearly full past the start. -/
theorem miss_size (t : Table K V) (h : Nat) (hwf : WF t)
    (hcap : 0 < t.capacity) (hmiss : ¬ probeT t h < t.capacity) :
    t.capacity ≤ h + sizeT t := by
  have hfull : ∀ m, pstart t.capacity h ≤ m → m < t.capacity →
      t.hdata.getD m 0 ≠ 0 := by
    intro m h1 h2
    have hle := probeT_le t h
    exact (probeT_pass t h m h1 (by omega)).2.1
  have hlen := hwf.1
  have hge := countP_ge_from t.hdata (fun x => x != 0)
    (pstart t.capacity h) ?side
  case side =>
    intro j hj1 hj2
    have := hfull j hj1 (by omega)
    simpa using this
  have hps : pstart t.capacity h ≤ h := by
    rw [pstart_eq _ _ hcap]
    exact Nat.mod_le h t.capacity
  have hlen := hwf.1
  unfold sizeT
  omega

/-- An empty table with positive capacity never misses. -/
theorem probe_of_empty (t : Table K V) (h : Nat) (hwf : WF t)
    (hcap : 0 < t.capacity) (hsz : sizeT t = 0) :
    probeT t h < t.capacity := by
  have hall := (sizeT_zero_iff t).mp hsz
  have hps := pstart_lt t.capacity h hcap
  have := probeT_min t h (pstart t.capacity h) le_rfl
    (Or.inl (hall _ (hwf.1 ▸ hps)))
  omega

theorem insert_post [Inhabited K] [Inhabited V] (hfun : K → Nat) :
    ∀ (fuel : Nat) (t t' : Table K V) (k : K) (v : V),
      WF t → invA hfun t → invD t →
      insertF hfun fuel t k v = some t' →
      InsPost hfun t t' (hfun k) := by
  intro fuel
  induction fuel with
  | zero =>
    intro t t' k v _ _ _ hins
    simp [insertF, engine] at hins
  | succ fuel ih =>
    intro t t' k v hwf hA hD hins
    rw [insertF_succ] at hins
    split at hins
    · -- immediate hit
      next hhit =>
      have ht' : t' = writeT t (probeT t (hfun k)) (hfun k) k v :=
        (Option.some_inj.mp hins).symm
      subst ht'
      set h := hfun k with hdefh
      have hstop := probeT_stop t h hhit
      refine ⟨WF_writeT t _ h k v hwf, le_rfl,
        write_invA hfun t h k v hwf hhit rfl hA,
        write_invD t h k v hwf hhit hD,
        fun g hg hc => write_containsH_keep t h k v hwf hhit g hg hc,
        write_containsH_self t h k v hwf hhit,
        write_size_le t h k v hwf hhit, ?_, ?_,
        fun hC => write_invC t h k v hwf hhit hC, ?_, ?_, ?_⟩
      · intro h0
        have hz : h = 0 := hdefh.trans h0
        rw [hz] at hhit ⊢
        rw [write_size_of_zero_hash t k v hwf hhit]
      · intro x hx
        rcases write_vals t h k v x hx with h1 | h1
        · right
          left
          exact h1
        · right
          right
          exact h1
      · intro hC hne hfresh
        rcases hstop with h0 | hh
        · exact write_size_of_empty t h k v hwf hhit h0 hne
        · exfalso
          apply hfresh
          rw [← hh]
          exact getD_mem_of_lt t.hdata _ 0 (hwf.1 ▸ hhit)
      · intro hC hne hdup
        rcases hstop with h0 | hh
        · exfalso
          obtain ⟨p, hp, hpe⟩ := List.getElem_of_mem hdup
          have hget : t.hdata.getD p 0 = h := by
            rw [getD_eq_getElem _ _ _ hp, hpe]
          have hfind := hC p (by rw [← hwf.1]; exact hp)
            (by rw [hget]; exact hne)
          rw [hget] at hfind
          rw [hfind] at h0
          exact hne (by rw [← hget, h0])
        · exact write_size_of_match t h k v hwf hhit hh
      · intro _ h0
        have hz : h = 0 := hdefh.trans h0
        rw [hz] at hhit ⊢
        rw [write_size_of_zero_hash t k v hwf hhit]
    · -- miss: reserve then retry
      next hmiss =>
      rcases hres : reserveF hfun fuel t
          (if sizeT t = 0 then 1 else t.capacity * 2) with _ | t1
      · rw [hres] at hins
        simp at hins
      · rw [hres] at hins
        simp only at hins
        by_cases hsz : sizeT t = 0
        · -- capacity must be zero; the table grows to one empty slot
          have hcap : t.capacity = 0 := by
            by_contra hc
            exact hmiss (probe_of_empty t (hfun k) hwf (by omega) hsz)
          rw [if_pos hsz] at hres
          have ht1 : t1 = grow t 1 :=
            reserveF_cap_zero_inv hfun t t1 hcap fuel hres
          have hnil : t.hdata = [] :=
            List.length_eq_zero.mp (by rw [hwf.1, hcap])
          have hwf1 : WF t1 := by
            rw [ht1]
            exact WF_grow t 1 hwf (by omega)
          have hall1 : ∀ j, j < t1.capacity → t1.hdata.getD j 0 = 0 := by
            intro j hj
            rw [ht1]
            exact grow_getD_hi t 1 j hwf (by omega)
          have hA1 : invA hfun t1 := by
            intro j hj hocc
            exact absurd (hall1 j hj) hocc
          have hD1 : invD t1 := by
            intro j hj hocc
            exact absurd (hall1 j hj) hocc
          have hsz1 : sizeT t1 = 0 := by
            rw [ht1, sizeT_grow]
            exact hsz
          have hpost := ih t1 t' k v hwf1 hA1 hD1 hins
          have hnoc : ∀ g, containsH t g = false := by
            intro g
            rw [containsH]
            have := probeT_le t g
            simp
            omega
          refine ⟨hpost.wf, by omega, hpost.inva, hpost.invd, ?_,
            hpost.self, ?_, ?_, ?_, ?_, ?_, ?_, ?_⟩
          · intro g hg hc
            rw [hnoc g] at hc
            exact absurd hc (by simp)
          · have := hpost.size_le
            omega
          · intro h0
            have := hpost.size_zero h0
            omega
          · intro x hx
            rcases hpost.vals x hx with h1 | h1 | h1
            · exact Or.inl h1
            · rw [ht1] at h1
              rcases grow_vals t 1 x h1 with h2 | h2
              · exact Or.inr (Or.inl h2)
              · exact Or.inl h2
            · exact Or.inr (Or.inr h1)
          · intro _
            apply hpost.invc
            intro j hj hocc
            exact absurd (hall1 j hj) hocc
          · intro hC hne hfresh
            have hC1 : invC t1 := by
              intro j hj hocc
              exact absurd (hall1 j hj) hocc
            have hfresh1 : ¬ (hfun k) ∈ t1.hdata := by
              intro hmem
              rw [ht1] at hmem
              rcases grow_vals t 1 _ hmem with h2 | h2
              · rw [hnil] at h2
                simp at h2
              · exact hne h2
            have := hpost.size_fresh hC1 hne hfresh1
            omega
          · intro hC hne hdup
            rw [hnil] at hdup
            simp at hdup
          · intro hC h0
            have hC1 : invC t1 := by
              intro j hj hocc
              exact absurd (hall1 j hj) hocc
            have := hpost.size_zero_c hC1 h0
            omega
        · -- growth to double capacity
          have hcap1 : 1 ≤ t.capacity := by
            by_contra hc
            have hc0 : t.capacity = 0 := by omega
            have : t.hdata = [] :=
              List.length_eq_zero.mp (by rw [hwf.1, hc0])
            apply hsz
            unfold sizeT
            rw [this]
            rfl
          rw [if_neg hsz] at hres
          obtain ⟨u2, hfuel, hwf2, hcap2, hA2, hC2, hsize2, hkeep2, hvals2,
            hcnt2⟩ := reserve_grow_spec hfun t hcap1 hwf hA hD
          have ht1 : t1 = u2 := by
            have h1 := engine_mono_le hfun fuel (max fuel (t.capacity + 2))
              (by omega) _ _ t1 hres
            have h2 := hfuel (max fuel (t.capacity + 2)) (by omega)
            rw [show t.capacity * 2 = 2 * t.capacity by ring] at h1
            have : reserveF hfun (max fuel (t.capacity + 2)) t
                (2 * t.capacity) = some t1 := h1
            rw [this] at h2
            exact Option.some_inj.mp h2
          subst ht1
          have hpost := ih t1 t' k v hwf2 hA2 (invD_of_invC t1 hC2) hins
          refine ⟨hpost.wf, ?_, hpost.inva, hpost.invd, ?_,
            hpost.self, by have := hpost.size_le; omega, ?_, ?_, ?_, ?_,
            ?_, ?_⟩
          · have := hpost.cap_mono
            omega
          · intro g hg hc
            exact hpost.keep g hg (hkeep2 g hg hc)
          · intro h0
            have := hpost.size_zero h0
            omega
          · intro x hx
            rcases hpost.vals x hx with h1 | h1 | h1
            · exact Or.inl h1
            · rcases hvals2 x h1 with h2 | h2
              · exact Or.inl h2
              · exact Or.inr (Or.inl h2)
            · exact Or.inr (Or.inr h1)
          · intro _
            exact hpost.invc hC2
          · intro hC hne hfresh
            have hfresh1 : ¬ (hfun k) ∈ t1.hdata := by
              intro hmem
              rcases hvals2 _ hmem with h2 | h2
              · exact hne h2
              · exact hfresh h2
            have h1 := hpost.size_fresh hC2 hne hfresh1
            have h2 := hcnt2 (invB_of_invC t hC)
            omega
          · intro hC hne hdup
            have hct : containsH t (hfun k) = true := by
              obtain ⟨p, hp, hpe⟩ := List.getElem_of_mem hdup
              have hget : t.hdata.getD p 0 = hfun k := by
                rw [getD_eq_getElem _ _ _ hp, hpe]
              have hfind := hC p (by rw [← hwf.1]; exact hp)
                (by rw [hget]; exact hne)
              rw [hget] at hfind
              rw [containsH_iff, hfind]
              exact ⟨by rw [← hwf.1]; exact hp, hget⟩
            have hc1 := hkeep2 _ hne hct
            have hdup1 : (hfun k) ∈ t1.hdata := by
              rw [containsH_iff] at hc1
              rw [← hc1.2]
              exact getD_mem_of_lt t1.hdata _ 0 (hwf2.1 ▸ hc1.1)
            have h1 := hpost.size_dup hC2 hne hdup1
            have h2 := hcnt2 (invB_of_invC t hC)
            omega
          · intro hC h0
            have h1 := hpost.size_zero_c hC2 h0
            have h2 := hcnt2 (invB_of_invC t hC)
            omega

/-- `insert` terminates: capacity doubles with every growth retry while the
key's hash and the number of live entries stay bounded, so once the
capacity passes `hash + size + 1` the probe must succeed. -/
theorem insert_exists_aux [Inhabited K] [Inhabited V] (hfun : K → Nat)
    (k : K) (v : V) :
    ∀ n (t : Table K V), WF t → invA hfun t → invD t →
      hfun k + sizeT t + 2 - t.capacity ≤ n →
      ∃ fuel t1, insertF hfun fuel t k v = some t1 := by
  intro n
  induction n with
  | zero =>
    intro t hwf hA hD hmu
    by_cases hhit : probeT t (hfun k) < t.capacity
    · exact ⟨1, _, insertF_of_hit hfun 0 t k v hhit⟩
    · exfalso
      have hcap : 0 < t.capacity := by omega
      have := miss_size t (hfun k) hwf hcap hhit
      omega
  | succ n ih =>
    intro t hwf hA hD hmu
    by_cases hhit : probeT t (hfun k) < t.capacity
    · exact ⟨1, _, insertF_of_hit hfun 0 t k v hhit⟩
    · by_cases hsz : sizeT t = 0
      · have hcap : t.capacity = 0 := by
          by_contra hc
          exact hhit (probe_of_empty t _ hwf (by omega) hsz)
        have hnil : t.hdata = [] :=
          List.length_eq_zero.mp (by rw [hwf.1, hcap])
        have hwf1 : WF (grow t 1) := WF_grow t 1 hwf (by omega)
        have hhit1 : probeT (grow t 1) (hfun k) < (grow t 1).capacity := by
          have h0 : (grow t 1).hdata.getD (pstart (grow t 1).capacity
              (hfun k)) 0 = 0 :=
            grow_getD_hi t 1 _ hwf (by omega)
          have := probeT_min (grow t 1) (hfun k) _ le_rfl (Or.inl h0)
          have hps := pstart_lt (grow t 1).capacity (hfun k)
            (by rw [grow_capacity]; omega)
          omega
        refine ⟨3, writeT (grow t 1) (probeT (grow t 1) (hfun k)) (hfun k)
          k v, ?_⟩
        rw [insertF_succ, if_neg hhit, if_pos hsz,
          reserveF_cap_zero hfun t hcap 2 (by omega)]
        exact insertF_of_hit hfun 1 (grow t 1) k v hhit1
      · have hcap1 : 1 ≤ t.capacity := by
          by_contra hc
          have hc0 : t.hdata = [] :=
            List.length_eq_zero.mp (by rw [hwf.1]; omega)
          apply hsz
          unfold sizeT
          rw [hc0]
          rfl
        obtain ⟨u2, hfuel, hwf2, hcap2, hA2, hC2, hsize2, -, -, -⟩ :=
          reserve_grow_spec hfun t hcap1 hwf hA hD
        have hms := miss_size t (hfun k) hwf (by omega) hhit
        have hmu2 : hfun k + sizeT u2 + 2 - u2.capacity ≤ n := by omega
        obtain ⟨f1, t1, hins1⟩ := ih u2 hwf2 hA2 (invD_of_invC u2 hC2) hmu2
        refine ⟨max f1 (t.capacity + 2) + 1, t1, ?_⟩
        rw [insertF_succ, if_neg hhit, if_neg hsz]
        have hres : reserveF hfun (max f1 (t.capacity + 2)) t
            (t.capacity * 2) = some u2 := by
          rw [show t.capacity * 2 = 2 * t.capacity by ring]
          exact hfuel _ (by omega)
        rw [hres]
        exact insertF_mono hfun f1 _ (by omega) u2 k v t1 hins1

theorem insert_exists [Inhabited K] [Inhabited V] (hfun : K → Nat)
    (t : Table K V) (k : K) (v : V) (hwf : WF t) (hA : invA hfun t)
    (hD : invD t) : ∃ fuel t1, insertF hfun fuel t k v = some t1 :=
  insert_exists_aux hfun k v (hfun k + sizeT t + 2 - t.capacity) t hwf hA hD
    le_rfl

/-! ## Reachable states -/

/-- States reachable from a default-constructed map by `insert` (completed
runs), `erase` and `clear`. -/
inductive Reach [Inhabited K] [Inhabited V] (hfun : K → Nat) :
    Table K V → Prop where
  | empty : Reach hfun clearT
  | ins (t t' : Table K V) (fuel : Nat) (k : K) (v : V) :
      Reach hfun t → insertF hfun fuel t k v = some t' → Reach hfun t'
  | ers (t : Table K V) (k : K) : Reach hfun t →
      Reach hfun (eraseT hfun t k)
  | clr (t : Table K V) : Reach hfun t → Reach hfun clearT

/-- States reachable without ever calling `erase`. -/
inductive ReachNE [Inhabited K] [Inhabited V] (hfun : K → Nat) :
    Table K V → Prop where
  | empty : ReachNE hfun clearT
  | ins (t t' : Table K V) (fuel : Nat) (k : K) (v : V) :
      ReachNE hfun t → insertF hfun fuel t k v = some t' → ReachNE hfun t'
  | clr (t : Table K V) : ReachNE hfun t → ReachNE hfun clearT

theorem ReachNE.toReach [Inhabited K] [Inhabited V] (hfun : K → Nat)
    (t : Table K V) (hr : ReachNE hfun t) : Reach hfun t := by
  induction hr with
  | empty => exact Reach.empty
  | ins t t' fuel k v _ hins ih => exact Reach.ins t t' fuel k v ih hins
  | clr t _ ih => exact Reach.clr t ih

theorem clearT_WF : WF (clearT : Table K V) := ⟨rfl, rfl, rfl⟩

theorem reach_inv [Inhabited K] [Inhabited V] (hfun : K → Nat)
    (t : Table K V) (hr : Reach hfun t) :
    WF t ∧ invA hfun t ∧ invD t := by
  induction hr with
  | empty =>
    exact ⟨clearT_WF, fun j hj => absurd hj (Nat.not_lt_zero j),
      fun j hj => absurd hj (Nat.not_lt_zero j)⟩
  | ins t t' fuel k v _ hins ih =>
    obtain ⟨hwf, hA, hD⟩ := ih
    have hp := insert_post hfun fuel t t' k v hwf hA hD hins
    exact ⟨hp.wf, hp.inva, hp.invd⟩
  | ers t k _ ih =>
    obtain ⟨hwf, hA, hD⟩ := ih
    exact ⟨WF_eraseT hfun t k hwf, eraseT_invA hfun t k hA,
      eraseT_invD hfun t k hD⟩
  | clr t _ _ =>
    exact ⟨clearT_WF, fun j hj => absurd hj (Nat.not_lt_zero j),
      fun j hj => absurd hj (Nat.not_lt_zero j)⟩

theorem reachNE_inv [Inhabited K] [Inhabited V] (hfun : K → Nat)
    (t : Table K V) (hr : ReachNE hfun t) :
    WF t ∧ invA hfun t ∧ invC t := by
  induction hr with
  | empty =>
    exact ⟨clearT_WF, fun j hj => absurd hj (Nat.not_lt_zero j),
      fun j hj => absurd hj (Nat.not_lt_zero j)⟩
  | ins t t' fuel k v _ hins ih =>
    obtain ⟨hwf, hA, hC⟩ := ih
    have hp := insert_post hfun fuel t t' k v hwf hA (invD_of_invC t hC) hins
    exact ⟨hp.wf, hp.inva, hp.invc hC⟩
  | clr t _ _ =>
    exact ⟨clearT_WF, fun j hj => absurd hj (Nat.not_lt_zero j),
      fun j hj => absurd hj (Nat.not_lt_zero j)⟩

/-- A zero-capacity table contains nothing. -/
theorem containsH_cap_zero (t : Table K V) (hcap : t.capacity = 0)
    (g : Nat) : containsH t g = false := by
  rw [containsH]
  have := probeT_le t g
  simp
  omega

/-- The concrete hash function for `map` instantiated at a byte-sequence key
type, on an LP64 platform (64-bit `std::size_t`). -/
def fnvh64 : List Nat → Nat := fun bytes => fnv1hash 64 bytes

/-- The concrete hash function for `map` instantiated at a byte-sequence key
type, on an ILP32 platform (32-bit `std::size_t`). -/
def fnvh32 : List Nat → Nat := fun bytes => fnv1hash 32 bytes

/-- Inserting a list of key/value pairs in order (each insert run with the
given fuel). -/
def insertList [Inhabited K] [Inhabited V] (hfun : K → Nat) (fuel : Nat)
    (t : Table K V) : List (K × V) → Option (Table K V)
  | [] => some t
  | (k, v) :: ps =>
    match insertF hfun fuel t k v with
    | none => none
    | some t1 => insertList hfun fuel t1 ps

theorem insertList_mono [Inhabited K] [Inhabited V] (hfun : K → Nat) :
    ∀ (ps : List (K × V)) (f f' : Nat) (t r : Table K V), f ≤ f' →
      insertList hfun f t ps = some r → insertList hfun f' t ps = some r := by
  intro ps
  induction ps with
  | nil =>
    intro f f' t r _ hr
    exact hr
  | cons p ps ih =>
    intro f f' t r hle hr
    obtain ⟨k, v⟩ := p
    rw [show insertList hfun f t ((k, v) :: ps)
        = match insertF hfun f t k v with
          | none => none
          | some t1 => insertList hfun f t1 ps from rfl] at hr
    rcases hins : insertF hfun f t k v with _ | t1
    · rw [hins] at hr
      simp at hr
    · rw [hins] at hr
      simp only at hr
      rw [show insertList hfun f' t ((k, v) :: ps)
          = match insertF hfun f' t k v with
            | none => none
            | some t1 => insertList hfun f' t1 ps from rfl,
        insertF_mono hfun f f' hle t k v t1 hins]
      exact ih f f' t1 r hle hr

/-- Inserting keys with fresh, pairwise-distinct, nonzero hashes grows the
size by exactly one per key and makes every key contained. -/
theorem insertList_spec [Inhabited K] [Inhabited V] (hfun : K → Nat) :
    ∀ (ps : List (K × V)) (st : Table K V),
      ReachNE hfun st →
      (ps.map (fun p => hfun p.1)).Pairwise (· ≠ ·) →
      (∀ p ∈ ps, hfun p.1 ≠ 0) →
      (∀ p ∈ ps, ¬ hfun p.1 ∈ st.hdata) →
      ∃ fuel t1, insertList hfun fuel st ps = some t1 ∧
        ReachNE hfun t1 ∧
        sizeT t1 = sizeT st + ps.length ∧
        (∀ g, g ≠ 0 → containsH st g = true → containsH t1 g = true) ∧
        (∀ p ∈ ps, containsT hfun t1 p.1 = true) ∧
        (∀ x, x ∈ t1.hdata → x = 0 ∨ x ∈ st.hdata ∨
          x ∈ ps.map (fun p => hfun p.1)) := by
  intro ps
  induction ps with
  | nil =>
    intro st hrne _ _ _
    exact ⟨0, st, rfl, hrne, by simp, fun g _ hc => hc, by simp,
      fun x hx => Or.inr (Or.inl hx)⟩
  | cons p ps ih =>
    intro st hrne hdist hnz hfresh
    obtain ⟨k, v⟩ := p
    obtain ⟨hwf, hA, hC⟩ := reachNE_inv hfun st hrne
    obtain ⟨f0, t1, hins⟩ := insert_exists hfun st k v hwf hA
      (invD_of_invC st hC)
    have hp := insert_post hfun f0 st t1 k v hwf hA (invD_of_invC st hC) hins
    have hrne1 : ReachNE hfun t1 := ReachNE.ins st t1 f0 k v hrne hins
    have hk0 : hfun k ≠ 0 := hnz (k, v) (by simp)
    have hkfresh : ¬ hfun k ∈ st.hdata := hfresh (k, v) (by simp)
    have hsize1 : sizeT t1 = sizeT st + 1 := hp.size_fresh hC hk0 hkfresh
    have hdist1 : (ps.map (fun p => hfun p.1)).Pairwise (· ≠ ·) := by
      rw [List.map_cons, List.pairwise_cons] at hdist
      exact hdist.2
    have hhead : ∀ p ∈ ps, hfun k ≠ hfun p.1 := by
      intro p hpp
      rw [List.map_cons, List.pairwise_cons] at hdist
      exact hdist.1 (hfun p.1) (List.mem_map_of_mem _ hpp)
    have hnz1 : ∀ p ∈ ps, hfun p.1 ≠ 0 := fun p hpp =>
      hnz p (List.mem_cons_of_mem _ hpp)
    have hfresh1 : ∀ p ∈ ps, ¬ hfun p.1 ∈ t1.hdata := by
      intro p hpp hmem
      rcases hp.vals _ hmem with h1 | h1 | h1
      · exact hnz1 p hpp h1
      · exact hfresh p (List.mem_cons_of_mem _ hpp) h1
      · exact hhead p hpp h1.symm
    obtain ⟨f1, t2, hlist, hrne2, hsize2, hkeep2, hcont2, hvals2⟩ :=
      ih t1 hrne1 hdist1 hnz1 hfresh1
    refine ⟨max f0 f1, t2, ?_, hrne2, ?_, ?_, ?_, ?_⟩
    · rw [show insertList hfun (max f0 f1) st ((k, v) :: ps)
          = match insertF hfun (max f0 f1) st k v with
            | none => none
            | some u => insertList hfun (max f0 f1) u ps from rfl,
        insertF_mono hfun f0 _ (by omega) st k v t1 hins]
      exact insertList_mono hfun ps f1 _ t1 t2 (by omega) hlist
    · rw [hsize2, hsize1]
      simp
      omega
    · intro g hg hc
      exact hkeep2 g hg (hp.keep g hg hc)
    · intro p hpp
      rcases List.mem_cons.mp hpp with rfl | htail
      · rw [containsT_eq_containsH]
        exact hkeep2 (hfun (k, v).1) hk0 hp.self
      · exact hcont2 p htail
    · intro x hx
      rcases hvals2 x hx with h1 | h1 | h1
      · exact Or.inl h1
      · rcases hp.vals x h1 with h2 | h2 | h2
        · exact Or.inl h2
        · exact Or.inr (Or.inl h2)
        · refine Or.inr (Or.inr ?_)
          rw [List.map_cons, h2]
          exact List.mem_cons_self _ _
      · refine Or.inr (Or.inr ?_)
        rw [List.map_cons]
        exact List.mem_cons_of_mem _ h1

/-! ## The hash function: range and platform width (claim C9) -/

theorem xor_lt_pow (x y n : Nat) (hx : x < 2 ^ n) (hy : y < 2 ^ n) :
    x ^^^ y < 2 ^ n := by
  have hxy : x ^^^ y = Nat.bitwise bne x y := rfl
  rw [hxy]
  exact Nat.bitwise_lt hx hy

theorem fnv_fold_lt (w : Nat) (hw : 8 ≤ w) :
    ∀ (data : List Nat) (acc : Nat), acc < 2 ^ w →
      (∀ b ∈ data, b < 256) →
      data.foldl (fun h b => (h * fnvPrime % 2 ^ w) ^^^ b) acc < 2 ^ w := by
  intro data
  induction data with
  | nil =>
    intro acc hacc _
    simpa using hacc
  | cons b bs ih =>
    intro acc hacc hb
    rw [List.foldl_cons]
    refine ih _ ?_ (fun x hx => hb x (List.mem_cons_of_mem _ hx))
    refine xor_lt_pow _ _ _ ?_ ?_
    · exact Nat.mod_lt _ (Nat.two_pow_pos w)
    · have hb1 : b < 256 := hb b (List.mem_cons_self _ _)
      have h256 : (256 : Nat) ≤ 2 ^ w :=
        le_trans (by norm_num : (256 : Nat) ≤ 2 ^ 8)
          (Nat.pow_le_pow_right (by norm_num) hw)
      omega

/-! ## The vector insert (claim C10) -/

theorem copyUp_length {α : Type _} (junk : α) :
    ∀ (n : Nat) (l : List α) (idx : Nat),
      (copyUp junk n l idx).length = l.length := by
  intro n
  induction n with
  | zero =>
    intro l idx
    rfl
  | succ n ih =>
    intro l idx
    rw [show copyUp junk (n + 1) l idx
        = copyUp junk n (l.set (idx + 1) (l.getD idx junk)) (idx + 1) from rfl,
      ih]
    simp

theorem copyUp_getD {α : Type _} (junk : α) :
    ∀ (n : Nat) (l : List α) (idx m : Nat), idx + n < l.length →
      (copyUp junk n l idx).getD m junk =
        if idx < m ∧ m ≤ idx + n then l.getD idx junk else l.getD m junk := by
  intro n
  induction n with
  | zero =>
    intro l idx m _
    rw [show copyUp junk 0 l idx = l from rfl, if_neg (by omega)]
  | succ n ih =>
    intro l idx m hlen
    rw [show copyUp junk (n + 1) l idx
        = copyUp junk n (l.set (idx + 1) (l.getD idx junk)) (idx + 1) from rfl,
      ih _ _ m (by rw [List.length_set]; omega)]
    by_cases hm : idx + 1 < m ∧ m ≤ idx + 1 + n
    · rw [if_pos hm, getD_set_self _ _ _ _ (by omega), if_pos (by omega)]
    · rw [if_neg hm]
      by_cases hm2 : m = idx + 1
      · subst hm2
        rw [getD_set_self _ _ _ _ (by omega), if_pos (by omega)]
      · rw [getD_set_ne _ _ _ (show idx + 1 ≠ m from fun hc => hm2 hc.symm),
          if_neg (by omega)]

theorem getD_append_junk {α : Type _} (l : List α) (junk : α) (m : Nat) :
    (l ++ [junk]).getD m junk = l.getD m junk := by
  rcases Nat.lt_or_ge m l.length with h | h
  · rw [List.getD_eq_getElem?_getD, List.getElem?_append_left h,
      ← List.getD_eq_getElem?_getD]
  · rw [List.getD_eq_getElem?_getD, List.getElem?_append_right h]
    rcases Nat.eq_or_lt_of_le h with rfl | h2
    · simp
    · rw [List.getElem?_eq_none (by simp; omega),
        List.getD_eq_getElem?_getD, List.getElem?_eq_none (by omega)]

/-! ## The claims -/

/-- Claim C1 (confirmed): growth preserves membership. From any reachable
state, when an insert misses (probing runs off the end, which is what
triggers `reserve` with the capacity the code requests: 1 on an empty
table, double otherwise) and the reserve completes, every key contained
immediately before the growth is still contained immediately after it. -/
theorem c1_growth_preserves_membership [Inhabited K] [Inhabited V]
    (hfun : K → Nat) (t t2 : Table K V) (k : K) (f : Nat)
    (hr : Reach hfun t)
    (hmiss : ¬ probeT t (hfun k) < t.capacity)
    (hres : reserveF hfun f t (if sizeT t = 0 then 1 else t.capacity * 2)
      = some t2) :
    ∀ k2, containsT hfun t k2 = true → containsT hfun t2 k2 = true := by
  obtain ⟨hwf, hA, hD⟩ := reach_inv hfun t hr
  intro k2 hc
  rw [containsT_eq_containsH] at hc ⊢
  by_cases hsz : sizeT t = 0
  · by_cases hcap : 0 < t.capacity
    · exact absurd (probe_of_empty t (hfun k) hwf hcap hsz) hmiss
    · rw [containsH_cap_zero t (by omega) _] at hc
      exact absurd hc (by simp)
  · have hcap : 0 < t.capacity := by
      by_contra hcap
      have h1 := sizeT_le t
      have h2 := hwf.1
      omega
    rw [if_neg hsz] at hres
    obtain ⟨u2, hfuel, hwf2, hcap2, _, _, hsz2, hkeep2, _, _⟩ :=
      reserve_grow_spec hfun t hcap hwf hA hD
    have ht2 : t2 = u2 := by
      have h1 := hfuel (max f (t.capacity + 2)) (by omega)
      have h2 : reserveF hfun (max f (t.capacity + 2)) t (t.capacity * 2)
          = some t2 :=
        reserveF_mono hfun f _ (by omega) t _ t2 hres
      rw [show t.capacity * 2 = 2 * t.capacity from by ring, h1] at h2
      exact (Option.some_inj.mp h2).symm
    subst ht2
    by_cases h0 : hfun k2 = 0
    · rw [h0] at hc ⊢
      rw [containsH_zero_iff t hwf] at hc
      rw [containsH_zero_iff t2 hwf2]
      omega
    · exact hkeep2 (hfun k2) h0 hc

theorem c1_growth_preserves_membership_witness :
    containsT fnvh64 (⟨[36342608889142558, 0], [[1], []], [10, 0], 2⟩ :
      Table (List Nat) Nat) [1] = true :=
  c1_growth_preserves_membership fnvh64
    ⟨[36342608889142558], [[1]], [10], 1⟩
    ⟨[36342608889142558, 0], [[1], []], [10, 0], 2⟩ [3] 10
    (Reach.ins clearT ⟨[36342608889142558], [[1]], [10], 1⟩ 10 [1] 10
      Reach.empty (by rfl))
    (by decide) (by rfl) [1] (by rfl)

/-- Claim C2 (corrected): the round-trip property as stated is false — the
table compares keys by hash value only, so two distinct keys with the same
hash occupy one slot and the second insert overwrites the first
(`c2_counterexample`).  Amended: for every sequence of keys whose hashes
are pairwise distinct and nonzero, inserting them all into the empty map
gives size N with every key contained. -/
theorem c2_round_trip [Inhabited K] [Inhabited V] (hfun : K → Nat)
    (ps : List (K × V))
    (hdist : (ps.map (fun p => hfun p.1)).Pairwise (· ≠ ·))
    (hnz : ∀ p ∈ ps, hfun p.1 ≠ 0) :
    ∃ fuel t1, insertList hfun fuel (clearT : Table K V) ps = some t1 ∧
      sizeT t1 = ps.length ∧
      ∀ p ∈ ps, containsT hfun t1 p.1 = true := by
  obtain ⟨fuel, t1, hlist, _, hsize, _, hcont, _⟩ :=
    insertList_spec hfun ps clearT ReachNE.empty hdist hnz
      (fun p _ hmem => absurd hmem (List.not_mem_nil _))
  refine ⟨fuel, t1, hlist, ?_, hcont⟩
  rw [hsize]
  show 0 + ps.length = ps.length
  omega

theorem c2_round_trip_witness :
    ∃ fuel t1, insertList fnvh64 fuel (clearT : Table (List Nat) Nat)
        [([1], 10), ([3], 20)] = some t1 ∧
      sizeT t1 = [([1], (10 : Nat)), ([3], 20)].length ∧
      ∀ p ∈ [([1], (10 : Nat)), ([3], 20)], containsT fnvh64 t1 p.1 = true :=
  c2_round_trip fnvh64 [([1], 10), ([3], 20)] (by decide) (by decide)

/-- Claim C2 counterexample: the 5-byte keys [39,176,20,183,136] and
[100,53,180,12,109] are distinct but share the 32-bit FNV-1 hash
4068624209.  After inserting both into the empty map, size is 1, not 2:
the second insert overwrote the slot of the first. -/
theorem c2_counterexample :
    ([39, 176, 20, 183, 136] : List Nat) ≠ [100, 53, 180, 12, 109] ∧
    insertList fnvh32 10 (clearT : Table (List Nat) Nat)
      [([39, 176, 20, 183, 136], 1), ([100, 53, 180, 12, 109], 2)]
      = some ⟨[4068624209], [[100, 53, 180, 12, 109]], [2], 1⟩ ∧
    sizeT (⟨[4068624209], [[100, 53, 180, 12, 109]], [2], 1⟩ :
      Table (List Nat) Nat) ≠ 2 :=
  ⟨by decide, by rfl, by decide⟩

/-- Claim C3 (corrected): erase correctness holds for keys whose hash is
nonzero: after a completed insert of k from a reachable state, erase(k)
makes contains(k) false and size drops by exactly one; and erase of an
absent key is a no-op on any reachable table.  For a key hashing to the
zero sentinel both parts fail (`c3_counterexample`). -/
theorem c3_erase_correct [Inhabited K] [Inhabited V] (hfun : K → Nat)
    (t t1 : Table K V) (k : K) (v : V) (fuel : Nat)
    (hr : Reach hfun t) (hk : hfun k ≠ 0)
    (hins : insertF hfun fuel t k v = some t1) :
    containsT hfun (eraseT hfun t1 k) k = false ∧
    sizeT (eraseT hfun t1 k) + 1 = sizeT t1 ∧
    (∀ (u : Table K V) (k2 : K), Reach hfun u →
      containsT hfun u k2 = false → eraseT hfun u k2 = u) := by
  obtain ⟨hwf, hA, hD⟩ := reach_inv hfun t hr
  have hp := insert_post hfun fuel t t1 k v hwf hA hD hins
  refine ⟨?_, ?_, ?_⟩
  · rw [containsT_eq_containsH]
    exact eraseT_contains_self hfun t1 k hp.wf hp.self hk
  · exact eraseT_size hfun t1 k hp.wf hp.self hk
  · intro u k2 hru hnc
    exact eraseT_noop hfun u k2 (reach_inv hfun u hru).1 hnc

theorem c3_erase_correct_witness :
    containsT fnvh64 (eraseT fnvh64
      (⟨[36342608889142558], [[1]], [10], 1⟩ : Table (List Nat) Nat) [1]) [1]
      = false ∧
    sizeT (eraseT fnvh64
      (⟨[36342608889142558], [[1]], [10], 1⟩ : Table (List Nat) Nat) [1]) + 1
      = sizeT (⟨[36342608889142558], [[1]], [10], 1⟩ : Table (List Nat) Nat) ∧
    (∀ (u : Table (List Nat) Nat) (k2 : List Nat), Reach fnvh64 u →
      containsT fnvh64 u k2 = false → eraseT fnvh64 u k2 = u) :=
  c3_erase_correct fnvh64 clearT ⟨[36342608889142558], [[1]], [10], 1⟩
    [1] 10 10 Reach.empty (by decide) (by rfl)

/-- Claim C3 counterexample: the byte string [1,71,108,16,243] hashes to 0
under 32-bit FNV-1.  Insert it into the empty map: the written slot keeps
hash marker 0.  Erase then leaves contains true (the probe stops at the
empty-looking slot, which compares equal to the zero hash) and size does
not decrease — both halves of the claimed behaviour fail. -/
theorem c3_counterexample :
    fnvh32 [1, 71, 108, 16, 243] = 0 ∧
    insertF fnvh32 10 (clearT : Table (List Nat) Nat)
      [1, 71, 108, 16, 243] (7 : Nat)
      = some ⟨[0], [[1, 71, 108, 16, 243]], [7], 1⟩ ∧
    ¬ (containsT fnvh32
        (eraseT fnvh32
          (⟨[0], [[1, 71, 108, 16, 243]], [7], 1⟩ : Table (List Nat) Nat)
          [1, 71, 108, 16, 243]) [1, 71, 108, 16, 243] = false ∧
      sizeT (eraseT fnvh32
          (⟨[0], [[1, 71, 108, 16, 243]], [7], 1⟩ : Table (List Nat) Nat)
          [1, 71, 108, 16, 243]) + 1
        = sizeT (⟨[0], [[1, 71, 108, 16, 243]], [7], 1⟩ :
            Table (List Nat) Nat)) :=
  ⟨by decide, by rfl, by decide⟩

/-- Claim C4 (corrected): the claim is false in general — clearing the slot
of k to the empty sentinel cuts the forward probe chain of any key that
probes through that slot (`c4_counterexample`).  Amended: erase(k) keeps a
contained key k2 (of nonzero hash) contained when the cleared slot lies
outside the probe window of k2: before the start index of k2, or strictly
after the slot where k2 is found. -/
theorem c4_erase_keep [Inhabited K] [Inhabited V] (hfun : K → Nat)
    (t : Table K V) (k k2 : K) (hr : Reach hfun t)
    (hne : hfun k2 ≠ 0) (hc : containsT hfun t k2 = true)
    (hout : probeT t (hfun k) < pstart t.capacity (hfun k2) ∨
      probeT t (hfun k2) < probeT t (hfun k)) :
    containsT hfun (eraseT hfun t k) k2 = true := by
  have hwf := (reach_inv hfun t hr).1
  rw [containsT_eq_containsH] at hc ⊢
  exact eraseT_keep hfun t k (hfun k2) hne hc hout

theorem c4_erase_keep_witness :
    containsT fnvh64 (eraseT fnvh64
      (⟨[36342608889142558, 36342608889142556], [[1], [3]], [10, 20], 2⟩ :
        Table (List Nat) Nat) [3]) [1] = true := by
  have h1 : Reach fnvh64
      (⟨[36342608889142558], [[1]], [10], 1⟩ : Table (List Nat) Nat) :=
    Reach.ins clearT ⟨[36342608889142558], [[1]], [10], 1⟩ 10 [1] 10
      Reach.empty (by rfl)
  have h2 : Reach fnvh64
      (⟨[36342608889142558, 36342608889142556], [[1], [3]], [10, 20], 2⟩ :
        Table (List Nat) Nat) :=
    Reach.ins ⟨[36342608889142558], [[1]], [10], 1⟩
      ⟨[36342608889142558, 36342608889142556], [[1], [3]], [10, 20], 2⟩
      10 [3] 20 h1 (by rfl)
  exact c4_erase_keep fnvh64
    ⟨[36342608889142558, 36342608889142556], [[1], [3]], [10, 20], 2⟩
    [3] [1] h2 (by decide) (by decide) (Or.inr (by decide))

/-- Claim C4 counterexample: a reachable table holding the distinct keys
[1] and [3] (distinct hashes), both contained; both hashes start probing at
slot 0, [3] is stored at slot 1.  Erasing [1] clears slot 0, and the probe
for [3] now stops at the empty slot 0: contains([3]) flips to false. -/
theorem c4_counterexample :
    Reach fnvh64
      (⟨[36342608889142558, 36342608889142556], [[1], [3]], [10, 20], 2⟩ :
        Table (List Nat) Nat) ∧
    ([1] : List Nat) ≠ [3] ∧ fnvh64 [1] ≠ fnvh64 [3] ∧
    containsT fnvh64
      (⟨[36342608889142558, 36342608889142556], [[1], [3]], [10, 20], 2⟩ :
        Table (List Nat) Nat) [3] = true ∧
    containsT fnvh64 (eraseT fnvh64
      (⟨[36342608889142558, 36342608889142556], [[1], [3]], [10, 20], 2⟩ :
        Table (List Nat) Nat) [1]) [3] = false := by
  refine ⟨?_, by decide, by decide, by decide, by decide⟩
  have h1 : Reach fnvh64
      (⟨[36342608889142558], [[1]], [10], 1⟩ : Table (List Nat) Nat) :=
    Reach.ins clearT ⟨[36342608889142558], [[1]], [10], 1⟩ 10 [1] 10
      Reach.empty (by rfl)
  exact Reach.ins ⟨[36342608889142558], [[1]], [10], 1⟩
    ⟨[36342608889142558, 36342608889142556], [[1], [3]], [10, 20], 2⟩
    10 [3] 20 h1 (by rfl)

/-- Claim C5 (confirmed): insert always terminates.  From every reachable
table state some finite fuel lets the insert complete: only finitely many
growth events occur before a slot is found and the entry is written. -/
theorem c5_insert_terminates [Inhabited K] [Inhabited V] (hfun : K → Nat)
    (t : Table K V) (k : K) (v : V) (hr : Reach hfun t) :
    ∃ fuel t1, insertF hfun fuel t k v = some t1 := by
  obtain ⟨hwf, hA, hD⟩ := reach_inv hfun t hr
  exact insert_exists hfun t k v hwf hA hD

theorem c5_insert_terminates_witness :
    ∃ fuel t1, insertF fnvh64 fuel (clearT : Table (List Nat) Nat)
      [1] (10 : Nat) = some t1 :=
  c5_insert_terminates fnvh64 clearT [1] 10 Reach.empty

/-- Claim C6 (confirmed): upsert.  After a completed insert of (k, v1) from
a reachable state, a second insert of (k, v2) completes immediately (one
unit of fuel), leaves size unchanged, keeps contains(k) true, and the slot
probing finds for the hash of k stores v2. -/
theorem c6_upsert [Inhabited K] [Inhabited V] (hfun : K → Nat)
    (t t1 : Table K V) (k : K) (v1 v2 : V) (fuel : Nat)
    (hr : Reach hfun t) (hins : insertF hfun fuel t k v1 = some t1) :
    ∃ t2, insertF hfun 1 t1 k v2 = some t2 ∧ sizeT t2 = sizeT t1 ∧
      containsT hfun t2 k = true ∧
      t2.vdata.getD (probeT t2 (hfun k)) default = v2 := by
  obtain ⟨hwf, hA, hD⟩ := reach_inv hfun t hr
  have hp := insert_post hfun fuel t t1 k v1 hwf hA hD hins
  have hwf1 := hp.wf
  have hself := hp.self
  rw [containsH_iff] at hself
  obtain ⟨hhit, hmatch⟩ := hself
  refine ⟨writeT t1 (probeT t1 (hfun k)) (hfun k) k v2,
    insertF_of_hit hfun 0 t1 k v2 hhit, ?_, ?_, ?_⟩
  · exact write_size_of_match t1 (hfun k) k v2 hwf1 hhit hmatch
  · rw [containsT_eq_containsH]
    exact write_containsH_self t1 (hfun k) k v2 hwf1 hhit
  · rw [write_probe_self t1 (hfun k) k v2 hwf1 hhit]
    exact write_vdata_at_slot t1 (hfun k) k v2 hwf1 hhit

theorem c6_upsert_witness :
    ∃ t2, insertF fnvh64 1
        (⟨[36342608889142558], [[1]], [10], 1⟩ : Table (List Nat) Nat)
        [1] (20 : Nat) = some t2 ∧
      sizeT t2
        = sizeT (⟨[36342608889142558], [[1]], [10], 1⟩ :
            Table (List Nat) Nat) ∧
      containsT fnvh64 t2 [1] = true ∧
      t2.vdata.getD (probeT t2 (fnvh64 [1])) default = 20 :=
  c6_upsert fnvh64 clearT ⟨[36342608889142558], [[1]], [10], 1⟩
    [1] 10 20 10 Reach.empty (by rfl)

/-- Claim C7 (corrected): part (a) — every occupied slot stores the hash of
its own key — holds on every reachable state.  Part (b) — at most one
occupied slot per hash value — holds on every state reachable without
erase, but fails once erase is allowed: erase cuts a probe chain, after
which reinserting the key that became unreachable stores its hash in a
second slot (`c7_counterexample`). -/
theorem c7_table_invariant [Inhabited K] [Inhabited V] (hfun : K → Nat) :
    (∀ t : Table K V, Reach hfun t → invA hfun t) ∧
    (∀ t : Table K V, ReachNE hfun t → invA hfun t ∧ invB t) :=
  ⟨fun t hr => (reach_inv hfun t hr).2.1,
   fun t hr => ⟨(reachNE_inv hfun t hr).2.1,
     invB_of_invC t (reachNE_inv hfun t hr).2.2⟩⟩

theorem c7_table_invariant_witness :
    (⟨[36342608889142558], [[1]], [10], 1⟩ :
      Table (List Nat) Nat).hdata.getD 0 0
      = fnvh64 ((⟨[36342608889142558], [[1]], [10], 1⟩ :
          Table (List Nat) Nat).kdata.getD 0 default) :=
  (c7_table_invariant fnvh64).1 ⟨[36342608889142558], [[1]], [10], 1⟩
    (Reach.ins clearT ⟨[36342608889142558], [[1]], [10], 1⟩ 10 [1] 10
      Reach.empty (by rfl)) 0 (by decide) (by decide)

/-- Claim C7 counterexample: a reachable state (insert [1]; insert [3];
erase [1]; insert [3] again) in which slots 0 and 1 are both occupied and
store the same hash — part (b) fails on erase-reachable states. -/
theorem c7_counterexample :
    Reach fnvh64
      (⟨[36342608889142556, 36342608889142556], [[3], [3]], [30, 20], 2⟩ :
        Table (List Nat) Nat) ∧
    ¬ invB (⟨[36342608889142556, 36342608889142556], [[3], [3]], [30, 20], 2⟩ :
        Table (List Nat) Nat) := by
  constructor
  · have h1 : Reach fnvh64
        (⟨[36342608889142558], [[1]], [10], 1⟩ : Table (List Nat) Nat) :=
      Reach.ins clearT ⟨[36342608889142558], [[1]], [10], 1⟩ 10 [1] 10
        Reach.empty (by rfl)
    have h2 : Reach fnvh64
        (⟨[36342608889142558, 36342608889142556], [[1], [3]], [10, 20], 2⟩ :
          Table (List Nat) Nat) :=
      Reach.ins ⟨[36342608889142558], [[1]], [10], 1⟩
        ⟨[36342608889142558, 36342608889142556], [[1], [3]], [10, 20], 2⟩
        10 [3] 20 h1 (by rfl)
    have h3 : Reach fnvh64
        (⟨[0, 36342608889142556], [[1], [3]], [10, 20], 2⟩ :
          Table (List Nat) Nat) := by
      have he := Reach.ers
        ⟨[36342608889142558, 36342608889142556], [[1], [3]], [10, 20], 2⟩
        [1] h2
      rw [show eraseT fnvh64
          (⟨[36342608889142558, 36342608889142556], [[1], [3]], [10, 20], 2⟩ :
            Table (List Nat) Nat) [1]
          = ⟨[0, 36342608889142556], [[1], [3]], [10, 20], 2⟩ from rfl] at he
      exact he
    exact Reach.ins ⟨[0, 36342608889142556], [[1], [3]], [10, 20], 2⟩
      ⟨[36342608889142556, 36342608889142556], [[3], [3]], [30, 20], 2⟩
      10 [3] 30 h3 (by rfl)
  · intro hB
    have h01 := hB 0 1 (by norm_num) (by norm_num) (by decide) (by decide)
    exact absurd h01 (by norm_num)

/-- Claim C8 (corrected): on a table reachable without erase, inserting a
key whose hash is the zero sentinel indeed leaves size unchanged.  But on a
general reachable table the claim fails: the growth such an insert triggers
reinserts the live entries, and duplicate-hash slots created by an earlier
erase merge, so size can decrease (`c8_counterexample`). -/
theorem c8_zero_hash_insert [Inhabited K] [Inhabited V] (hfun : K → Nat)
    (t t1 : Table K V) (k : K) (v : V) (fuel : Nat)
    (hr : ReachNE hfun t) (h0 : hfun k = 0)
    (hins : insertF hfun fuel t k v = some t1) :
    sizeT t1 = sizeT t := by
  obtain ⟨hwf, hA, hC⟩ := reachNE_inv hfun t hr
  exact (insert_post hfun fuel t t1 k v hwf hA (invD_of_invC t hC)
    hins).size_zero_c hC h0

theorem c8_zero_hash_insert_witness :
    sizeT (⟨[0], [[1, 71, 108, 16, 243]], [7], 1⟩ : Table (List Nat) Nat)
      = sizeT (clearT : Table (List Nat) Nat) :=
  c8_zero_hash_insert fnvh32 clearT ⟨[0], [[1, 71, 108, 16, 243]], [7], 1⟩
    [1, 71, 108, 16, 243] 7 10 ReachNE.empty (by decide) (by rfl)

/-- Claim C8 counterexample: a reachable table (built with one erase) of
size 2 whose two occupied slots hold the same hash.  Inserting the
zero-hash key [1,71,108,16,243] triggers a growth whose reinsertion merges
the duplicate slots: the size after the insert is 1, not 2. -/
theorem c8_counterexample :
    Reach fnvh32
      (⟨[562827996, 562827996], [[3, 0, 0, 0, 0], [3, 0, 0, 0, 0]], [3, 2], 2⟩ :
        Table (List Nat) Nat) ∧
    fnvh32 [1, 71, 108, 16, 243] = 0 ∧
    insertF fnvh32 10
      (⟨[562827996, 562827996], [[3, 0, 0, 0, 0], [3, 0, 0, 0, 0]], [3, 2], 2⟩ :
        Table (List Nat) Nat) [1, 71, 108, 16, 243] (4 : Nat)
      = some ⟨[562827996, 0, 0, 0],
          [[3, 0, 0, 0, 0], [1, 71, 108, 16, 243], [], []], [2, 4, 0, 0], 4⟩ ∧
    sizeT (⟨[562827996, 0, 0, 0],
        [[3, 0, 0, 0, 0], [1, 71, 108, 16, 243], [], []], [2, 4, 0, 0], 4⟩ :
      Table (List Nat) Nat)
      ≠ sizeT (⟨[562827996, 562827996],
          [[3, 0, 0, 0, 0], [3, 0, 0, 0, 0]], [3, 2], 2⟩ :
        Table (List Nat) Nat) := by
  refine ⟨?_, by decide, by rfl, by decide⟩
  have h1 : Reach fnvh32
      (⟨[3252982014], [[1, 0, 0, 0, 0]], [1], 1⟩ : Table (List Nat) Nat) :=
    Reach.ins clearT ⟨[3252982014], [[1, 0, 0, 0, 0]], [1], 1⟩ 10
      [1, 0, 0, 0, 0] 1 Reach.empty (by rfl)
  have h2 : Reach fnvh32
      (⟨[3252982014, 562827996], [[1, 0, 0, 0, 0], [3, 0, 0, 0, 0]], [1, 2], 2⟩ :
        Table (List Nat) Nat) :=
    Reach.ins ⟨[3252982014], [[1, 0, 0, 0, 0]], [1], 1⟩
      ⟨[3252982014, 562827996], [[1, 0, 0, 0, 0], [3, 0, 0, 0, 0]], [1, 2], 2⟩
      10 [3, 0, 0, 0, 0] 2 h1 (by rfl)
  have h3 : Reach fnvh32
      (⟨[0, 562827996], [[1, 0, 0, 0, 0], [3, 0, 0, 0, 0]], [1, 2], 2⟩ :
        Table (List Nat) Nat) := by
    have he := Reach.ers
      ⟨[3252982014, 562827996], [[1, 0, 0, 0, 0], [3, 0, 0, 0, 0]], [1, 2], 2⟩
      [1, 0, 0, 0, 0] h2
    rw [show eraseT fnvh32
        (⟨[3252982014, 562827996], [[1, 0, 0, 0, 0], [3, 0, 0, 0, 0]], [1, 2], 2⟩ :
          Table (List Nat) Nat) [1, 0, 0, 0, 0]
        = ⟨[0, 562827996], [[1, 0, 0, 0, 0], [3, 0, 0, 0, 0]], [1, 2], 2⟩
        from rfl] at he
    exact he
  exact Reach.ins ⟨[0, 562827996], [[1, 0, 0, 0, 0], [3, 0, 0, 0, 0]], [1, 2], 2⟩
    ⟨[562827996, 562827996], [[3, 0, 0, 0, 0], [3, 0, 0, 0, 0]], [3, 2], 2⟩
    10 [3, 0, 0, 0, 0] 3 h3 (by rfl)

/-- Claim C9 (corrected): the accumulator of `__fnv1hash` has the platform
width of `std::size_t`, not 32 bits, so on an LP64 platform the result is
not confined to the 32-bit domain (`c9_counterexample`).  What holds, for
byte inputs: the result stays below `2 ^ w` for accumulator width `w`, the
empty input returns the offset basis 0x811c9dc5 unchanged, and with a
32-bit `std::size_t` the function computes exactly the 32-bit FNV-1 fold
the spec describes (multiply by the prime, then XOR the byte). -/
theorem c9_hasher_contract (w : Nat) (data : List Nat) (hw : 32 ≤ w)
    (hdata : ∀ b ∈ data, b < 256) :
    fnv1hash w data < 2 ^ w ∧ fnv1hash w [] = 2166136261 ∧
    fnv1hash 32 data = fnv1spec data := by
  refine ⟨?_, rfl, rfl⟩
  have hbasis : fnvBasis < 2 ^ w :=
    lt_of_lt_of_le (by norm_num [fnvBasis])
      (Nat.pow_le_pow_right (by norm_num) hw)
  exact fnv_fold_lt w (by omega) data fnvBasis hbasis hdata

theorem c9_hasher_contract_witness :
    fnv1hash 32 [1] < 2 ^ 32 ∧ fnv1hash 32 [] = 2166136261 ∧
    fnv1hash 32 [1] = fnv1spec [1] :=
  c9_hasher_contract 32 [1] (by norm_num) (by decide)

/-- Claim C9 counterexample: with a 64-bit `std::size_t` the first
multiplication already exceeds `2 ^ 32`: hashing the single byte 0 returns
36342608889142559, outside the claimed unsigned 32-bit domain. -/
theorem c9_counterexample : ¬ fnv1hash 64 [0] < 2 ^ 32 := by decide

/-- Claim C10 (corrected): the copy loop of `vector::insert` runs upwards
(`a[i+1] = a[i]` for i = idx, idx+1, …), so after its first step every
later source cell has already been overwritten: the old elements at
idx..n-1 are not shifted — every slot above idx ends up holding the
element formerly at idx (`c10_counterexample` shows an element being
destroyed).  What holds: the length grows by one, elements below idx are
unchanged, slot idx receives the new value, every slot above idx holds the
old element of slot idx, and push_front(v) equals insert(0, v). -/
theorem c10_vector_insert {α : Type _} (junk : α) (l : List α) (idx : Nat)
    (v : α) (hidx : idx ≤ l.length) :
    (vinsert junk l idx v).length = l.length + 1 ∧
    (∀ m, m < idx → (vinsert junk l idx v).getD m junk = l.getD m junk) ∧
    (vinsert junk l idx v).getD idx junk = v ∧
    (∀ m, idx < m → m ≤ l.length →
      (vinsert junk l idx v).getD m junk = l.getD idx junk) ∧
    vpushFront junk l v = vinsert junk l 0 v := by
  have hvi : vinsert junk l idx v
      = (copyUp junk ((l ++ [junk]).length - 1 - idx) (l ++ [junk]) idx).set
          idx v := rfl
  have hlen1 : (l ++ [junk]).length = l.length + 1 := by simp
  have hn : (l ++ [junk]).length - 1 - idx = l.length - idx := by
    rw [hlen1]
    omega
  have hculen : (copyUp junk (l.length - idx) (l ++ [junk]) idx).length
      = l.length + 1 := by
    rw [copyUp_length, hlen1]
  have hget : ∀ m,
      (copyUp junk (l.length - idx) (l ++ [junk]) idx).getD m junk
      = if idx < m ∧ m ≤ idx + (l.length - idx) then
          (l ++ [junk]).getD idx junk
        else (l ++ [junk]).getD m junk :=
    fun m => copyUp_getD junk (l.length - idx) (l ++ [junk]) idx m
      (by rw [hlen1]; omega)
  rw [hvi, hn]
  refine ⟨?_, ?_, ?_, ?_, rfl⟩
  · rw [List.length_set, hculen]
  · intro m hm
    rw [getD_set_ne _ _ _ (show idx ≠ m by omega), hget m,
      if_neg (by omega), getD_append_junk]
  · rw [getD_set_self _ _ _ _ (by rw [hculen]; omega)]
  · intro m hm1 hm2
    rw [getD_set_ne _ _ _ (show idx ≠ m by omega), hget m,
      if_pos (by omega), getD_append_junk]

theorem c10_vector_insert_witness :
    (vinsert 0 [10, 20] 1 7).getD 1 0 = 7 ∧
    (vinsert 0 [10, 20] 1 7).getD 0 0 = [10, 20].getD 0 0 :=
  ⟨(c10_vector_insert 0 [10, 20] 1 7 (by decide)).2.2.1,
   (c10_vector_insert 0 [10, 20] 1 7 (by decide)).2.1 0 (by decide)⟩

/-- Claim C10 counterexample: inserting 5 at index 0 of [10, 20] yields
[5, 10, 10] — the element 20 is destroyed by the upward copy — instead of
the shifted vector [5, 10, 20] the claim describes. -/
theorem c10_counterexample :
    vinsert 0 [10, 20] 0 5 = [5, 10, 10] ∧
    vinsert 0 [10, 20] 0 5 ≠ [5, 10, 20] :=
  ⟨rfl, by decide⟩

end Cppds
